import Mathlib

/-!
# tnetstrings encoder

A shallow embedding of `encode.go` (package `tnetstrings`) and proofs about the
frames it writes.

Go values are represented by what `reflect` lets the encoder observe of them
(`GoVal`); byte strings are lists of byte values; the output sink is an explicit
state with a `write` operation that may fail.
-/

namespace Tnetstrings

/-! ## Bytes and text -/

/-- A Go `string` or `[]byte`: a sequence of bytes, each represented by its numeric
value (`0 ≤ b < 256` for real data). -/
abbrev Bytes := List Nat

/-- The bytes of an ASCII literal (code point = byte for ASCII text). -/
def ascii (s : String) : Bytes := s.toList.map Char.toNat

/-- Go's `<` on strings: byte-wise lexicographic order. -/
def strLess : Bytes → Bytes → Bool
  | [], [] => false
  | [], _ :: _ => true
  | _ :: _, [] => false
  | a :: as, b :: bs => if a < b then true else if b < a then false else strLess as bs

/-! ## `fmt` verbs used by the encoder -/

/-- Big-endian decimal digits of `n`, with `fuel` bounding the number of digits. -/
def natDigits : Nat → Nat → Bytes
  | 0, _ => []
  | fuel + 1, n => if n < 10 then [48 + n] else natDigits fuel (n / 10) ++ [48 + n % 10]

/-- The verb `%d` applied to a non-negative integer such as `len(s)`. -/
def decimal (n : Nat) : Bytes := natDigits (n + 1) n

/-- The verb `%d` applied to an integer of any signed or unsigned kind. -/
def fmtInt (n : Int) : Bytes :=
  if n < 0 then 45 :: decimal n.natAbs else decimal n.natAbs

/-- The function `strconv.FormatBool`. -/
def FormatBool (b : Bool) : Bytes := if b then ascii "true" else ascii "false"

/-- A floating-point value: NaN, an infinity, or `(-1)^neg * mant * 2^exp`. -/
inductive GoFloat where
  | nan
  | inf (neg : Bool)
  | finite (neg : Bool) (mant : Nat) (exp : Int)
deriving DecidableEq, Repr

/-- Nearest integer to `num / den`, ties to even (the rounding of `strconv`). -/
def roundHalfEven (num den : Nat) : Nat :=
  let q := num / den
  let r := num % den
  if 2 * r < den then q else if den < 2 * r then q + 1 else if q % 2 = 0 then q else q + 1

/-- Six fractional digits, zero padded on the left. -/
def frac6 (n : Nat) : Bytes :=
  let d := decimal n
  List.replicate (6 - d.length) 48 ++ d

/-- The verb `%f` (default precision six) applied to a float. -/
def fmtFloat : GoFloat → Bytes
  | .nan => ascii "NaN"
  | .inf false => ascii "+Inf"
  | .inf true => ascii "-Inf"
  | .finite neg mant exp =>
    let scaled : Nat :=
      match exp with
      | .ofNat k => mant * 2 ^ k * 10 ^ 6
      | .negSucc k => roundHalfEven (mant * 10 ^ 6) (2 ^ (k + 1))
    (if neg then [45] else []) ++ decimal (scaled / 10 ^ 6) ++ [46] ++ frac6 (scaled % 10 ^ 6)

/-- The format `"%d:%s<tag>"` applied to `len(payload)` and `payload`. -/
def frame (payload : Bytes) (tag : Nat) : Bytes :=
  decimal payload.length ++ [58] ++ payload ++ [tag]

/-- Tag byte of a string frame: a comma. -/
def tagString : Nat := 44
/-- Tag byte of an integer frame: a hash sign. -/
def tagInteger : Nat := 35
/-- Tag byte of a float frame: a caret. -/
def tagFloat : Nat := 94
/-- Tag byte of a boolean frame: an exclamation mark. -/
def tagBoolean : Nat := 33
/-- Tag byte of the null frame: a tilde. -/
def tagNull : Nat := 126
/-- Tag byte of a dictionary frame: a closing brace. -/
def tagDict : Nat := 125
/-- Tag byte of a list frame: a closing bracket. -/
def tagList : Nat := 93

/-! ## Go values as seen through `reflect` -/

/-- The kinds of `reflect.Kind`. -/
inductive Kind where
  | invalid | bool
  | int | int8 | int16 | int32 | int64
  | uint | uint8 | uint16 | uint32 | uint64 | uintptr
  | float32 | float64 | complex64 | complex128
  | array | chan | func | interface | map | pointer | slice | string | struct
  | unsafePointer
deriving DecidableEq, Repr

/-- A Go type as far as the encoder looks at it: its kind and its `String()` form. -/
structure GoType where
  kind : Kind
  name : Bytes
deriving DecidableEq, Repr

/-- The ten integer kinds accepted by the integer case of `Encode`. -/
inductive IntKind where
  | int | int8 | int16 | int32 | int64
  | uint | uint8 | uint16 | uint32 | uint64
deriving DecidableEq, Repr

/-- The two float kinds accepted by the float case of `Encode`. -/
inductive FloatKind where
  | float32 | float64
deriving DecidableEq, Repr

/-- The data pointer of a `reflect.Value`, as far as a comparison can tell pointers
apart: nil, the address of the runtime's shared zero storage `runtime.zeroVal`, or
any other address. -/
inductive Pointer where
  | null
  | zeroVal
  | other
deriving DecidableEq, Repr

/-- The header of a `reflect.Value` next to its type: the data pointer and the flag
bit `flagIndir`. The operator `==` on two values of one type compares these. -/
structure ValueHeader where
  ptr : Pointer
  indir : Bool
deriving DecidableEq, Repr

/-- The header of `reflect.Zero(t)`: the nil pointer, without `flagIndir`, for a
pointer-shaped type `t` (pointer, map, channel, function, or a struct or array of
one such element), and the shared zero storage, with `flagIndir`, for every other
type of at most 1024 bytes. -/
def reflectZero (pointerShaped : Bool) : ValueHeader :=
  if pointerShaped then ⟨.null, false⟩ else ⟨.zeroVal, true⟩

/-- One field of a struct value, as `field` reads it through `reflect`. -/
structure StructField (α : Type) where
  /-- The declared name, `t.Name`. -/
  name : Bytes
  /-- The result of `fv.CanInterface()`: true exactly for exported fields. -/
  canInterface : Bool
  /-- The result of `t.Tag.Lookup("tnetstrings")`: the annotation, if present. -/
  tag : Option Bytes
  /-- The header of `fv = v.Field(i)`. Its pointer is the data word of the interface
  value that holds the struct, moved by the offset of the field: `zeroVal` for the
  field at offset 0 of a struct that the call holds in `runtime.zeroVal` (as Go does
  for a zero composite literal converted in the call), `null` for the nil pointer
  of a pointer-shaped struct, and `other` in storage of its own, such as the copy
  that `reflect` makes when it reads a value out of a pointer, a slice or a map.
  Its `flagIndir` is that of the struct: set unless the struct is pointer-shaped. -/
  fv : ValueHeader
  /-- The type of the field is pointer-shaped; this fixes `reflect.Zero(t.Type)`. -/
  pointerShaped : Bool
  /-- The field value, `fv.Interface()`. -/
  val : α

/-- The result of the comparison `fv == reflect.Zero(t.Type)` of two
`reflect.Value`s of the same type. -/
def StructField.eqZero {α : Type} (f : StructField α) : Bool :=
  decide (f.fv = reflectZero f.pointerShaped)

/-- A Go value passed to `Encode` as `interface{}`, described by what
`reflect.ValueOf` reports about it. The constructor fixes `v.Kind()`.

* `nil`: the nil interface (kind `Invalid`);
* `str named s`: kind `String`; `named` tells that the dynamic type is a defined
  type rather than `string` itself, so that the assertion `val.(string)` fails;
* `int`, `float`: the integer and float kinds, for a dynamic type without a
  `Format` method;
* `formattedInt k n out`, `formattedFloat k x out`: the integer and float kinds,
  for a defined type with a `Format` method (`fmt.Formatter`); `out` is what that
  method writes when `fmt` formats the value with the verb of the encoder;
* `formattedBytes b out`: kind `Array` or `Slice` with element kind `Uint8`,
  holding the bytes `b`, for a defined type with a `Format`, `Error` or `String`
  method; `out` is what the verb `%s` prints for it through that method;
* `bool named b`: kind `Bool`, `named` as for strings;
* `ptr elem`: kind `Ptr`; `none` is a nil pointer, `some x` a pointer whose
  referent is `x = v.Elem().Interface()`;
* `map key entries`: kind `Map` with key type `key`; `entries` lists each key of
  `v.MapKeys()`, in the order that call delivers them, with `v.MapIndex(k)`;
* `struct fields`: kind `Struct`, fields in declaration order;
* `slice elem xs`: kind `Array` or `Slice` with element type `elem`, for a dynamic
  type without a `Format`, `Error` or `String` method when `elem` is of kind
  `Uint8`;
* `other t`: any other kind (`Uintptr`, complex, `Chan`, `Func`,
  `UnsafePointer`), with its type. -/
inductive GoVal where
  | nil
  | str (named : Bool) (s : Bytes)
  | int (k : IntKind) (n : Int)
  | float (k : FloatKind) (x : GoFloat)
  | bool (named : Bool) (b : Bool)
  | ptr (elem : Option GoVal)
  | map (key : GoType) (entries : List (GoVal × GoVal))
  | struct (fields : List (StructField GoVal))
  | slice (elem : GoType) (xs : List GoVal)
  | other (t : GoType)
  | formattedInt (k : IntKind) (n : Int) (out : Bytes)
  | formattedFloat (k : FloatKind) (x : GoFloat) (out : Bytes)
  | formattedBytes (b : Bytes) (out : Bytes)

/-! ## The output sink -/

/-- An error returned by the sink's `Write`. -/
structure SinkError where
  code : Nat
deriving DecidableEq, Repr

/-- An `io.Writer` with state `σ`: `write` returns the new state and the error, if any. -/
structure Writer (σ : Type) where
  write : σ → Bytes → σ × Option SinkError

/-- Modelled from the spec: the error type `ErrUnsupportedType` is declared outside
`encode.go`; section 7 describes it as carrying the offending type. The second
constructor is an error of the sink, passed on as it is. -/
inductive EncodeError where
  | unsupportedType (t : GoType)
  | sink (err : SinkError)
deriving DecidableEq, Repr

/-- How a call ends: it returns nil, returns an error, panics, or (in this model
only) uses up the recursion budget. -/
inductive Outcome where
  | ok
  | error (err : EncodeError)
  | panic
  | exhausted
deriving DecidableEq, Repr

/-- A `bytes.Buffer` as a writer: `Write` appends and never fails. -/
def bufferWriter : Writer Bytes := ⟨fun buf p => (buf ++ p, none)⟩

/-- The calls `fmt.Fprintf(e, ...)` and `fmt.Fprint(e, ...)`: the formatted bytes
`out` go to the sink in one `Write`, whose error is returned. -/
def Fprintf {σ : Type} (e : Writer σ) (s : σ) (out : Bytes) : σ × Outcome :=
  match e.write s out with
  | (s1, none) => (s1, .ok)
  | (s1, some err) => (s1, .error (.sink err))

/-- The type of the method `Encode` of an encoder writing to any sink. -/
abbrev EncodeFn := GoVal → {σ : Type} → Writer σ → σ → σ × Outcome

/-! ## Library functions -/

/-- The method `reflect.Value.String` of a map key of static type `t`: the string
itself for kind `String`, and the placeholder `<T Value>` for every other kind. -/
def valueString (t : GoType) (k : GoVal) : Bytes :=
  match t.kind, k with
  | .string, .str _ s => s
  | _, _ => ascii "<" ++ t.name ++ ascii " Value>"

/-- One inner loop of Go's insertion sort: `x` moves left past every element it is
less than. The sorted part is held last element first. -/
def insertLast {α : Type} (less : α → α → Bool) (x : α) : List α → List α
  | [] => [x]
  | y :: ys => if less x y then y :: insertLast less x ys else x :: y :: ys

/-- The function `sort.Slice`, as the insertion sort that Go runs on slices of at
most twelve elements. On longer slices Go runs another algorithm; whenever `less`
is a strict total order on the elements the result is the same, as there is only
one sorted arrangement (`sortSlice_unique`). -/
def sortSlice {α : Type} (less : α → α → Bool) (xs : List α) : List α :=
  (xs.foldl (fun acc x => insertLast less x acc) []).reverse

/-- The function `strings.Split(s, sep)` for a one-byte separator. -/
def Split (sep : Nat) : Bytes → List Bytes
  | [] => [[]]
  | c :: cs =>
    if c = sep then [] :: Split sep cs
    else
      match Split sep cs with
      | [] => [[c]]
      | h :: t => (c :: h) :: t

/-- The bytes of an array or slice of kind-`Uint8` elements, which is what the
verb `%s` prints for it. -/
def sliceBytes (xs : List GoVal) : Bytes :=
  xs.map fun x =>
    match x with
    | .int _ n => n.toNat
    | _ => 0

mutual
/-- The key is not equal to itself, so that `v.MapIndex(k)` does not find it and
returns the zero `reflect.Value`: a floating-point NaN, or a struct or an array
that holds one. -/
def lookupMisses : GoVal → Bool
  | .float _ .nan => true
  | .formattedFloat _ .nan _ => true
  | .struct fields => lookupMissesFields fields
  | .slice _ xs => lookupMissesList xs
  | _ => false
/-- One of the elements is not equal to itself. -/
def lookupMissesList : List GoVal → Bool
  | [] => false
  | x :: xs => lookupMisses x || lookupMissesList xs
/-- One of the field values is not equal to itself. -/
def lookupMissesFields : List (StructField GoVal) → Bool
  | [] => false
  | f :: fs => lookupMisses f.val || lookupMissesFields fs
end

/-! ## The encoder -/

/-- The function `field`: name, value and inclusion of one struct field. -/
def field (f : StructField GoVal) : Bytes × GoVal × Bool :=
  if !f.canInterface then ([], .nil, false)
  else
    match f.tag with
    | some tag =>
      if tag = ascii "-" then ([], .nil, false)
      else
        let ts := Split 44 tag
        let name := if 0 < ts.length ∧ ts.getD 0 [] ≠ [] then ts.getD 0 [] else f.name
        if 1 < ts.length ∧ ts.getD 1 [] = ascii "omitempty" ∧ f.fv = reflectZero f.pointerShaped then
          ([], .nil, false)
        else (name, f.val, true)
    | none => (f.name, f.val, true)

/-- The loop of `encodeSlice`: every element is encoded by `f`, in order; the
first failure ends the loop. -/
def encodeSliceLoop (enc : EncodeFn) {σ : Type} (f : Writer σ) : List GoVal → σ → σ × Outcome
  | [], s => (s, .ok)
  | x :: xs, s =>
    match enc x f s with
    | (s1, .ok) => encodeSliceLoop enc f xs s1
    | r => r

/-- The method `encodeSlice`, with `enc` for the recursive calls of `Encode`. The
byte branch is that of a type without a `Format`, `Error` or `String` method, for
which `%s` prints the bytes; `encodeBody` has the branch of a type with one. -/
def encodeSlice (enc : EncodeFn) (elem : GoType) (xs : List GoVal) {σ : Type}
    (e : Writer σ) (s : σ) : σ × Outcome :=
  if elem.kind = .uint8 then Fprintf e s (frame (sliceBytes xs) tagString)
  else
    match encodeSliceLoop enc bufferWriter xs [] with
    | (buf, .ok) => Fprintf e s (frame buf tagList)
    | (_, r) => (s, r)

/-- The loop of `encodeMap`: for every key, the key and then its value. For a key
that the lookup `v.MapIndex(k)` misses, `Interface()` panics on the zero
`reflect.Value`. -/
def encodeMapLoop (enc : EncodeFn) {σ : Type} (f : Writer σ) :
    List (GoVal × GoVal) → σ → σ × Outcome
  | [], s => (s, .ok)
  | (k, v) :: ks, s =>
    match enc k f s with
    | (s1, .ok) =>
      if lookupMisses k then (s1, .panic)
      else
        match enc v f s1 with
        | (s2, .ok) => encodeMapLoop enc f ks s2
        | r => r
    | r => r

/-- The method `encodeMap`, with `enc` for the recursive calls of `Encode`. Every
key travels with the value that `v.MapIndex(k)` finds for it, if it finds the key
(`lookupMisses`). -/
def encodeMap (enc : EncodeFn) (key : GoType) (entries : List (GoVal × GoVal)) {σ : Type}
    (e : Writer σ) (s : σ) : σ × Outcome :=
  let ks := sortSlice (fun a b => strLess (valueString key a.1) (valueString key b.1)) entries
  match encodeMapLoop enc bufferWriter ks [] with
  | (buf, .ok) => Fprintf e s (frame buf tagDict)
  | (_, r) => (s, r)

/-- The loop of `encodeStruct`: for every included field, its name and then its value. -/
def encodeStructLoop (enc : EncodeFn) {σ : Type} (f : Writer σ) :
    List (StructField GoVal) → σ → σ × Outcome
  | [], s => (s, .ok)
  | fld :: fs, s =>
    match field fld with
    | (_, _, false) => encodeStructLoop enc f fs s
    | (name, val, true) =>
      match enc (.str false name) f s with
      | (s1, .ok) =>
        match enc val f s1 with
        | (s2, .ok) => encodeStructLoop enc f fs s2
        | r => r
      | r => r

/-- The method `encodeStruct`, with `enc` for the recursive calls of `Encode`. -/
def encodeStruct (enc : EncodeFn) (fields : List (StructField GoVal)) {σ : Type}
    (e : Writer σ) (s : σ) : σ × Outcome :=
  match encodeStructLoop enc bufferWriter fields [] with
  | (buf, .ok) => Fprintf e s (frame buf tagDict)
  | (_, r) => (s, r)

/-- The body of the method `Encode`, with `enc` for its recursive calls. A failed
type assertion and `Interface()` on the zero `reflect.Value` panic. The verbs `%d`,
`%f` and `%s` are applied to the dynamic value: where its type has a method that
`fmt` calls for the verb, the payload is what that method gives. -/
def encodeBody (enc : EncodeFn) (val : GoVal) {σ : Type} (e : Writer σ) (s : σ) : σ × Outcome :=
  match val with
  | .str named str => if named then (s, .panic) else Fprintf e s (frame str tagString)
  | .int _ n => Fprintf e s (frame (fmtInt n) tagInteger)
  | .float _ x => Fprintf e s (frame (fmtFloat x) tagFloat)
  | .bool named b => if named then (s, .panic) else Fprintf e s (frame (FormatBool b) tagBoolean)
  | .nil => Fprintf e s (ascii "0:~")
  | .ptr none => (s, .panic)
  | .ptr (some x) => enc x e s
  | .map key entries => encodeMap enc key entries e s
  | .struct fields => encodeStruct enc fields e s
  | .slice elem xs => encodeSlice enc elem xs e s
  | .other t => (s, .error (.unsupportedType t))
  | .formattedInt _ _ out => Fprintf e s (frame out tagInteger)
  | .formattedFloat _ _ out => Fprintf e s (frame out tagFloat)
  | .formattedBytes _ out => Fprintf e s (frame out tagString)

/-- The method `Encode` with a bound `fuel` on the depth of its recursion. -/
def encodeFuel : Nat → EncodeFn
  | 0 => fun _ _ _ s => (s, .exhausted)
  | fuel + 1 => fun val _ e s => encodeBody (encodeFuel fuel) val e s

mutual
/-- The nesting depth of a value: the depth of recursion that encoding it needs. -/
def depth : GoVal → Nat
  | .ptr (some x) => depth x + 1
  | .map _ entries => depthEntries entries + 1
  | .struct fields => depthFields fields + 1
  | .slice _ xs => depthList xs + 1
  | _ => 0
/-- The greatest depth among the elements of a list. -/
def depthList : List GoVal → Nat
  | [] => 0
  | x :: xs => max (depth x) (depthList xs)
/-- The greatest depth among the keys and values of a map. -/
def depthEntries : List (GoVal × GoVal) → Nat
  | [] => 0
  | (k, v) :: es => max (max (depth k) (depth v)) (depthEntries es)
/-- The greatest depth among the values of the fields of a struct. -/
def depthFields : List (StructField GoVal) → Nat
  | [] => 0
  | f :: fs => max (depth f.val) (depthFields fs)
end

/-- The method `Encode`: the value `val` is encoded to the sink `e`, whose state
is `s`; the result is the new state of the sink and the outcome of the call. The
recursion is given the depth it needs (`Encode_eq_encodeBody`). -/
def Encode (val : GoVal) {σ : Type} (e : Writer σ) (s : σ) : σ × Outcome :=
  encodeFuel (depth val + 1) val e s


/-! ## Notions of the specification -/

/-- The number that a string of decimal digits denotes. -/
def parseNat (d : Bytes) : Nat := d.foldl (fun acc b => acc * 10 + (b - 48)) 0

/-- The byte string `d` is the base-10 rendering of `n` without leading zeros:
it is not empty, holds digits only, starts with `0` only if it is `0`, and
denotes `n`. -/
def CanonicalDecimal (d : Bytes) (n : Nat) : Prop :=
  d ≠ [] ∧ (∀ b ∈ d, 48 ≤ b ∧ b ≤ 57) ∧ (d.head? = some 48 → d = [48]) ∧ parseNat d = n

instance (d : Bytes) (n : Nat) : Decidable (CanonicalDecimal d n) := by
  unfold CanonicalDecimal
  infer_instance

/-- The seven tag bytes of the wire format. -/
def tags : List Nat :=
  [tagString, tagInteger, tagFloat, tagBoolean, tagNull, tagDict, tagList]

/-- The integer that an optional minus sign followed by decimal digits denotes. -/
def parseInt : Bytes → Int
  | 45 :: d => -(parseNat d : Int)
  | d => (parseNat d : Int)

/-- What `Encode` writes for `val` when it is called on an empty buffer. -/
def written (val : GoVal) : Bytes := (Encode val bufferWriter []).1

/-- The call `Encode(val)` succeeds (on a sink that accepts the write). -/
def Succeeds (val : GoVal) : Prop := (Encode val bufferWriter []).2 = .ok

instance (val : GoVal) : Decidable (Succeeds val) := by
  unfold Succeeds
  infer_instance

/-- The `(key, value)` pairs of the included fields of a struct, in declaration
order: what `field` returns for the fields it does not skip. -/
def includedPairs (fs : List (StructField GoVal)) : List (Bytes × GoVal) :=
  fs.filterMap fun f => if (field f).2.2 then some ((field f).1, (field f).2.1) else none

/-- The widest notion of containing an unsupported kind: the value is of such a
kind, or contains one as a list element, a map value, a record field, or the
referent of a reference, at any depth. -/
inductive ContainsUnsupported : GoVal → Prop where
  | self (t : GoType) : ContainsUnsupported (.other t)
  | referent {x : GoVal} : ContainsUnsupported x → ContainsUnsupported (.ptr (some x))
  | element {elem : GoType} {xs : List GoVal} {x : GoVal} :
      x ∈ xs → ContainsUnsupported x → ContainsUnsupported (.slice elem xs)
  | mapValue {key : GoType} {es : List (GoVal × GoVal)} {p : GoVal × GoVal} :
      p ∈ es → ContainsUnsupported p.2 → ContainsUnsupported (.map key es)
  | recordField {fs : List (StructField GoVal)} {f : StructField GoVal} :
      f ∈ fs → ContainsUnsupported f.val → ContainsUnsupported (.struct fs)

/-- In the order in which `Encode` visits the values in `val`, the first value that
it does not encode is of unsupported kind, with type `t`. The order is: `val`
itself; the referent of a pointer that is not nil; the elements of a list that is
not a byte string, first to last; the entries of a map in the order the sort
leaves them in, each key before its value; the values of the included fields of
a struct, in declaration order. Everything visited before encodes, and the lookup
finds every map key visited before. -/
inductive FirstUnsupported (t : GoType) : GoVal → Prop where
  | self : FirstUnsupported t (.other t)
  | referent {x : GoVal} : FirstUnsupported t x → FirstUnsupported t (.ptr (some x))
  | element {elem : GoType} {pre post : List GoVal} {x : GoVal} :
      elem.kind ≠ .uint8 → (∀ y ∈ pre, Succeeds y) → FirstUnsupported t x →
      FirstUnsupported t (.slice elem (pre ++ x :: post))
  | mapKey {key : GoType} {es pre post : List (GoVal × GoVal)} {p : GoVal × GoVal} :
      sortSlice (fun a b => strLess (valueString key a.1) (valueString key b.1)) es
        = pre ++ p :: post →
      (∀ q ∈ pre, Succeeds q.1 ∧ lookupMisses q.1 = false ∧ Succeeds q.2) →
      FirstUnsupported t p.1 → FirstUnsupported t (.map key es)
  | mapValue {key : GoType} {es pre post : List (GoVal × GoVal)} {p : GoVal × GoVal} :
      sortSlice (fun a b => strLess (valueString key a.1) (valueString key b.1)) es
        = pre ++ p :: post →
      (∀ q ∈ pre, Succeeds q.1 ∧ lookupMisses q.1 = false ∧ Succeeds q.2) →
      Succeeds p.1 → lookupMisses p.1 = false →
      FirstUnsupported t p.2 → FirstUnsupported t (.map key es)
  | includedField {pre post : List (StructField GoVal)} {f : StructField GoVal} :
      (∀ g ∈ pre, (field g).2.2 = true → Succeeds g.val) → (field f).2.2 = true →
      FirstUnsupported t f.val → FirstUnsupported t (.struct (pre ++ f :: post))

/-! ## The abstract value model and a decoder -/

/-- The abstract value model of section 3 of the specification, floats left out. A
dictionary is listed as its pairs. -/
inductive Value where
  | string (s : Bytes)
  | integer (n : Int)
  | boolean (b : Bool)
  | null
  | list (xs : List Value)
  | dict (es : List (Bytes × Value))

/-- The tag byte of a value (section 3). -/
def tagOf : Value → Nat
  | .string _ => 44
  | .integer _ => 35
  | .boolean _ => 33
  | .null => 126
  | .list _ => 93
  | .dict _ => 125

mutual
/-- The payload of a value in the wire format of section 6. -/
def payload : Value → Bytes
  | .string s => s
  | .integer n => fmtInt n
  | .boolean b => FormatBool b
  | .null => []
  | .list xs => payloadList xs
  | .dict es => payloadPairs es
/-- The payload of a list: the frames of the items, in order. -/
def payloadList : List Value → Bytes
  | [] => []
  | x :: xs => frame (payload x) (tagOf x) ++ payloadList xs
/-- The payload of a dictionary: for every pair the frame of the key, as a string,
and the frame of the value. -/
def payloadPairs : List (Bytes × Value) → Bytes
  | [] => []
  | (k, v) :: es => frame k 44 ++ frame (payload v) (tagOf v) ++ payloadPairs es
end

/-- The frame of a value in the wire format of section 6. -/
def wire (v : Value) : Bytes := frame (payload v) (tagOf v)

mutual
/-- Every dictionary in the value lists its pairs with strictly ascending keys: the
one listing of a key-unique set of pairs that the canonical form prescribes. -/
def canonical : Value → Bool
  | .list xs => canonicalList xs
  | .dict es =>
    decide ((es.map Prod.fst).Pairwise fun a b => strLess a b = true) && canonicalPairs es
  | _ => true
/-- Every item of the list is canonical. -/
def canonicalList : List Value → Bool
  | [] => true
  | x :: xs => canonical x && canonicalList xs
/-- Every value of the pairs is canonical. -/
def canonicalPairs : List (Bytes × Value) → Bool
  | [] => true
  | (_, v) :: es => canonical v && canonicalPairs es
end

/-- The choices that the abstract model leaves open when a value is held as a Go
value: the integer kind, the element type of lists, the key type of maps, and the
order in which a map delivers its entries. -/
structure Delivery where
  intKind : Int → IntKind
  elemType : GoType
  keyType : GoType
  order : List (Bytes × GoVal) → List (Bytes × GoVal)

/-- The choices are those of a Go program: lists are not byte strings, map keys are
strings, and a map delivers each of its entries once, in some order. -/
def Delivery.Valid (d : Delivery) : Prop :=
  d.elemType.kind ≠ .uint8 ∧ d.keyType.kind = .string ∧ ∀ l, (d.order l).Perm l

mutual
/-- A Go value holding the abstract value. -/
def toGo (d : Delivery) : Value → GoVal
  | .string s => .str false s
  | .integer n => .int (d.intKind n) n
  | .boolean b => .bool false b
  | .null => .nil
  | .list xs => .slice d.elemType (toGoList d xs)
  | .dict es => .map d.keyType ((d.order (toGoPairs d es)).map fun p => (.str false p.1, p.2))
/-- The Go values holding the items of a list. -/
def toGoList (d : Delivery) : List Value → List GoVal
  | [] => []
  | x :: xs => toGo d x :: toGoList d xs
/-- The entries holding the pairs of a dictionary. -/
def toGoPairs (d : Delivery) : List (Bytes × Value) → List (Bytes × GoVal)
  | [] => []
  | (k, v) :: es => (k, toGo d v) :: toGoPairs d es
end

/-- The frame at the head of the input: its payload, its tag, and the bytes that
follow it. The length is read up to the colon. -/
def splitFrame (inp : Bytes) : Option (Bytes × Nat × Bytes) :=
  match inp.dropWhile (fun b => b != 58) with
  | [] => none
  | _ :: rest =>
    match rest.drop (parseNat (inp.takeWhile (fun b => b != 58))) with
    | [] => none
    | t :: after => some (rest.take (parseNat (inp.takeWhile (fun b => b != 58))), t, after)

/-- The items of a list payload, each decoded by `dec`; `n` bounds their number. -/
def decodeItems (dec : Bytes → Nat → Option Value) : Nat → Bytes → Option (List Value)
  | 0, inp => if inp = [] then some [] else none
  | n + 1, inp =>
    if inp = [] then some []
    else
      match splitFrame inp with
      | none => none
      | some (p, t, rest) =>
        match dec p t, decodeItems dec n rest with
        | some v, some vs => some (v :: vs)
        | _, _ => none

/-- The pairs of a dictionary payload, each value decoded by `dec`; `n` bounds
their number. -/
def decodePairs (dec : Bytes → Nat → Option Value) : Nat → Bytes → Option (List (Bytes × Value))
  | 0, inp => if inp = [] then some [] else none
  | n + 1, inp =>
    if inp = [] then some []
    else
      match splitFrame inp with
      | none => none
      | some (k, tk, rest) =>
        if tk = 44 then
          match splitFrame rest with
          | none => none
          | some (p, t, rest2) =>
            match dec p t, decodePairs dec n rest2 with
            | some v, some es => some ((k, v) :: es)
            | _, _ => none
        else none

/-- The value with the given payload and tag, with `fuel` bounding the nesting. -/
def decodeFuel : Nat → Bytes → Nat → Option Value
  | 0, _, _ => none
  | fuel + 1, p, t =>
    if t = 44 then some (.string p)
    else if t = 35 then some (.integer (parseInt p))
    else if t = 33 then
      if p = ascii "true" then some (.boolean true)
      else if p = ascii "false" then some (.boolean false)
      else none
    else if t = 126 then (if p = [] then some .null else none)
    else if t = 93 then (decodeItems (decodeFuel fuel) p.length p).map .list
    else if t = 125 then (decodePairs (decodeFuel fuel) p.length p).map .dict
    else none

/-- A decoder for the wire format of section 6: the value whose frame the input is. -/
def decode (inp : Bytes) : Option Value :=
  match splitFrame inp with
  | some (p, t, []) => decodeFuel inp.length p t
  | _ => none

/-- An example of the open choices: 64-bit integers, lists of interface values,
and maps that deliver their entries in the reverse of the listed order. -/
def exampleDelivery : Delivery :=
  ⟨fun _ => .int64, ⟨.interface, ascii "interface {}"⟩, ⟨.string, ascii "string"⟩, List.reverse⟩

/-- An example value: a dictionary holding a list under `a` and a string that
contains a colon under `b`. -/
def exampleValue : Value :=
  .dict [(ascii "a", .list [.integer (-5), .null, .boolean true, .dict []]),
    (ascii "b", .string (ascii "x:y"))]

/-! ## Further notions of the specification -/

/-- A sink that records the argument of every `Write` it receives, and answers
each of them with `fail`. -/
def recordingWriter (fail : Option SinkError) : Writer (List Bytes) :=
  ⟨fun log p => (log ++ [p], fail)⟩

/-- A byte slice or byte array holding the bytes `b`, of a type without a `Format`,
`Error` or `String` method; `elemName` is the name of its element type, of kind
`Uint8`. -/
def byteSlice (elemName : Bytes) (b : Bytes) : GoVal :=
  .slice ⟨.uint8, elemName⟩ (b.map fun x => GoVal.int .uint8 (Int.ofNat x))

/-- The first comma-separated component of an annotation. -/
def firstComponent (tag : Bytes) : Bytes := tag.takeWhile fun b => b != 44

/-- The second comma-separated component of an annotation, if it has a comma. -/
def secondComponent (tag : Bytes) : Option Bytes :=
  match tag.dropWhile fun b => b != 44 with
  | [] => none
  | _ :: rest => some (rest.takeWhile fun b => b != 44)

/-- The field is left out of every encoding: it is not exported, or its annotation
is the exclude directive `-`. -/
def excluded (f : StructField GoVal) : Bool :=
  !f.canInterface || f.tag == some (ascii "-")

/-- The annotation of the field names `omitempty` as its option. -/
def asksOmitEmpty (f : StructField GoVal) : Bool :=
  match f.tag with
  | none => false
  | some tag => secondComponent tag == some (ascii "omitempty")

/-- The dictionary key selected for a field: the first component of the annotation
when there is an annotation and that component is not empty, and the declared
field name otherwise. -/
def selectedKey (f : StructField GoVal) : Bytes :=
  match f.tag with
  | none => f.name
  | some tag => if firstComponent tag = [] then f.name else firstComponent tag

/-- The dictionary payload of a list of pairs: for every pair the string frame of
the key followed by the frame that `Encode` writes for the value. -/
def pairsPayload (ps : List (Bytes × GoVal)) : Bytes :=
  (ps.map fun p => frame p.1 tagString ++ written p.2).flatten

/-! # Theorems -/

/-! ## The sort is a rearrangement -/

theorem insertLast_perm {α : Type} (less : α → α → Bool) (x : α) (l : List α) :
    (insertLast less x l).Perm (x :: l) := by
  induction l with
  | nil => simp [insertLast]
  | cons y ys ih =>
    unfold insertLast
    split
    · exact (List.Perm.cons y ih).trans (List.Perm.swap x y ys)
    · exact List.Perm.refl _

theorem foldl_insertLast_perm {α : Type} (less : α → α → Bool) (xs acc : List α) :
    (xs.foldl (fun acc x => insertLast less x acc) acc).Perm (xs ++ acc) := by
  induction xs generalizing acc with
  | nil => simp
  | cons x xs ih =>
    simp only [List.foldl_cons, List.cons_append]
    refine (ih _).trans ?_
    refine (List.Perm.append_left xs (insertLast_perm less x acc)).trans ?_
    exact List.perm_middle

theorem sortSlice_perm {α : Type} (less : α → α → Bool) (xs : List α) :
    (sortSlice less xs).Perm xs := by
  unfold sortSlice
  refine (List.reverse_perm _).trans ?_
  simpa using foldl_insertLast_perm less xs []

theorem mem_sortSlice {α : Type} (less : α → α → Bool) (xs : List α) (a : α) :
    a ∈ sortSlice less xs ↔ a ∈ xs :=
  (sortSlice_perm less xs).mem_iff

/-! ## Depth of the children -/

theorem depth_le_depthList {x : GoVal} {xs : List GoVal} (h : x ∈ xs) :
    depth x ≤ depthList xs := by
  induction xs with
  | nil => cases h
  | cons y ys ih =>
    simp only [depthList]
    rcases List.mem_cons.1 h with rfl | h
    · exact le_max_left _ _
    · exact (ih h).trans (le_max_right _ _)

theorem depth_le_depthEntries {p : GoVal × GoVal} {es : List (GoVal × GoVal)} (h : p ∈ es) :
    depth p.1 ≤ depthEntries es ∧ depth p.2 ≤ depthEntries es := by
  induction es with
  | nil => cases h
  | cons q qs ih =>
    obtain ⟨k, v⟩ := q
    simp only [depthEntries]
    rcases List.mem_cons.1 h with rfl | h
    · exact ⟨(le_max_left _ _).trans (le_max_left _ _), (le_max_right _ _).trans (le_max_left _ _)⟩
    · exact ⟨(ih h).1.trans (le_max_right _ _), (ih h).2.trans (le_max_right _ _)⟩

theorem depth_le_depthFields {f : StructField GoVal} {fs : List (StructField GoVal)}
    (h : f ∈ fs) : depth f.val ≤ depthFields fs := by
  induction fs with
  | nil => cases h
  | cons g gs ih =>
    simp only [depthFields]
    rcases List.mem_cons.1 h with rfl | h
    · exact le_max_left _ _
    · exact (ih h).trans (le_max_right _ _)

/-- Structural induction on Go values: a property that holds of every value
without children, and of every composite whose children have it, holds of all. -/
theorem GoVal.induction_children {P : GoVal → Prop} (v : GoVal)
    (nil : P .nil)
    (str : ∀ named s, P (.str named s))
    (int : ∀ k n, P (.int k n))
    (float : ∀ k x, P (.float k x))
    (bool : ∀ named b, P (.bool named b))
    (nilPtr : P (.ptr none))
    (ptr : ∀ x, P x → P (.ptr (some x)))
    (map : ∀ key es, (∀ p ∈ es, P p.1 ∧ P p.2) → P (.map key es))
    (struct : ∀ fs, (∀ f ∈ fs, P f.val) → P (.struct fs))
    (slice : ∀ elem xs, (∀ x ∈ xs, P x) → P (.slice elem xs))
    (other : ∀ t, P (.other t))
    (formattedInt : ∀ k n out, P (.formattedInt k n out))
    (formattedFloat : ∀ k x out, P (.formattedFloat k x out))
    (formattedBytes : ∀ b out, P (.formattedBytes b out)) : P v := by
  have key : ∀ n (v : GoVal), depth v < n → P v := by
    intro n
    induction n with
    | zero => intro v h; omega
    | succ n ih =>
      intro v h
      cases v with
      | nil => exact nil
      | str named s => exact str named s
      | int k n => exact int k n
      | float k x => exact float k x
      | bool named b => exact bool named b
      | ptr elem =>
        cases elem with
        | none => exact nilPtr
        | some x => exact ptr x (ih x (by simp only [depth] at h; omega))
      | map key es =>
        refine map key es fun p hp => ?_
        have := depth_le_depthEntries hp
        simp only [depth] at h
        exact ⟨ih _ (by omega), ih _ (by omega)⟩
      | struct fs =>
        refine struct fs fun f hf => ?_
        have := depth_le_depthFields hf
        simp only [depth] at h
        exact ih _ (by omega)
      | slice elem xs =>
        refine slice elem xs fun x hx => ?_
        have := depth_le_depthList hx
        simp only [depth] at h
        exact ih _ (by omega)
      | other t => exact other t
      | formattedInt k n out => exact formattedInt k n out
      | formattedFloat k x out => exact formattedFloat k x out
      | formattedBytes b out => exact formattedBytes b out
  exact key (depth v + 1) v (Nat.lt_succ_self _)

/-! ## The recursion budget is never used up -/

theorem encodeSliceLoop_congr (enc enc' : EncodeFn) {σ : Type} (f : Writer σ) (xs : List GoVal)
    (h : ∀ x ∈ xs, ∀ s, enc x f s = enc' x f s) (s : σ) :
    encodeSliceLoop enc f xs s = encodeSliceLoop enc' f xs s := by
  induction xs generalizing s with
  | nil => rfl
  | cons x xs ih =>
    simp only [encodeSliceLoop]
    rw [h x (List.mem_cons_self _ _) s]
    rcases enc' x f s with ⟨s1, o⟩
    cases o <;> try rfl
    exact ih (fun y hy => h y (List.mem_cons_of_mem _ hy)) s1

/-- An included field is returned with its own value. -/
theorem field_val (f : StructField GoVal) (h : (field f).2.2 = true) : (field f).2.1 = f.val := by
  unfold field at h ⊢
  cases hc : f.canInterface <;> cases ht : f.tag <;> simp only [hc, ht] at h ⊢
  · simp at h
  · simp at h
  · simp
  · simp only [Bool.not_true, Bool.false_eq_true, if_false] at h ⊢
    split_ifs at h ⊢ <;> simp_all

theorem encodeMapLoop_congr (enc enc' : EncodeFn) {σ : Type} (f : Writer σ)
    (ks : List (GoVal × GoVal))
    (h : ∀ p ∈ ks, ∀ s, enc p.1 f s = enc' p.1 f s ∧ enc p.2 f s = enc' p.2 f s) (s : σ) :
    encodeMapLoop enc f ks s = encodeMapLoop enc' f ks s := by
  induction ks generalizing s with
  | nil => rfl
  | cons p ks ih =>
    obtain ⟨k, v⟩ := p
    have ih' := ih (fun q hq => h q (List.mem_cons_of_mem _ hq))
    simp only [encodeMapLoop]
    rw [(h (k, v) (List.mem_cons_self _ _) s).1]
    rcases enc' k f s with ⟨s1, o⟩
    cases o <;> try rfl
    simp only []
    rw [(h (k, v) (List.mem_cons_self _ _) s1).2]
    split
    · rfl
    · rcases enc' v f s1 with ⟨s2, o⟩
      cases o <;> try rfl
      exact ih' s2

theorem encodeStructLoop_congr (enc enc' : EncodeFn) {σ : Type} (f : Writer σ)
    (fs : List (StructField GoVal))
    (hname : ∀ name s, enc (.str false name) f s = enc' (.str false name) f s)
    (h : ∀ fld ∈ fs, ∀ s, enc fld.val f s = enc' fld.val f s) (s : σ) :
    encodeStructLoop enc f fs s = encodeStructLoop enc' f fs s := by
  induction fs generalizing s with
  | nil => rfl
  | cons fld fs ih =>
    have ih' := ih (fun g hg => h g (List.mem_cons_of_mem _ hg))
    have hv := field_val fld
    simp only [encodeStructLoop]
    generalize field fld = r at hv ⊢
    obtain ⟨name, val, ok⟩ := r
    cases ok
    · exact ih' s
    · simp only [forall_true_left] at hv
      subst hv
      simp only []
      rw [hname name s]
      rcases enc' (.str false name) f s with ⟨s1, o⟩
      cases o <;> try rfl
      simp only []
      rw [h fld (List.mem_cons_self _ _) s1]
      rcases enc' fld.val f s1 with ⟨s2, o⟩
      cases o <;> try rfl
      exact ih' s2

/-- The body of `Encode` only calls `enc` on the children of the value (and, for a
struct, on field names). -/
theorem encodeBody_congr (enc enc' : EncodeFn) (val : GoVal)
    (hname : (∃ fs, val = .struct fs) →
      ∀ name (s : Bytes), enc (.str false name) bufferWriter s = enc' (.str false name) bufferWriter s)
    (h : ∀ c, depth c < depth val → ∀ {σ : Type} (e : Writer σ) (s : σ), enc c e s = enc' c e s)
    {σ : Type} (e : Writer σ) (s : σ) :
    encodeBody enc val e s = encodeBody enc' val e s := by
  cases val with
  | nil => rfl
  | str named s => rfl
  | int k n => rfl
  | float k x => rfl
  | bool named b => rfl
  | other t => rfl
  | formattedInt k n out => rfl
  | formattedFloat k x out => rfl
  | formattedBytes b out => rfl
  | ptr elem =>
    cases elem with
    | none => rfl
    | some x => exact h x (by simp [depth]) e s
  | map key es =>
    simp only [encodeBody, encodeMap]
    rw [encodeMapLoop_congr enc enc' bufferWriter _ ?_ []]
    intro p hp s1
    have := depth_le_depthEntries ((mem_sortSlice _ _ _).1 hp)
    exact ⟨h _ (by simp only [depth]; omega) _ _, h _ (by simp only [depth]; omega) _ _⟩
  | struct fs =>
    simp only [encodeBody, encodeStruct]
    rw [encodeStructLoop_congr enc enc' bufferWriter fs (hname ⟨fs, rfl⟩) ?_ []]
    intro f hf s1
    have := depth_le_depthFields hf
    exact h _ (by simp only [depth]; omega) _ _
  | slice elem xs =>
    simp only [encodeBody, encodeSlice]
    rw [encodeSliceLoop_congr enc enc' bufferWriter xs ?_ []]
    intro x hx s1
    have := depth_le_depthList hx
    exact h _ (by simp only [depth]; omega) _ _

/-- Any budget above the depth of the value gives the same result. -/
theorem encodeFuel_stable (n m : Nat) (val : GoVal) (hn : depth val < n) (hm : depth val < m)
    {σ : Type} (e : Writer σ) (s : σ) :
    encodeFuel n val e s = encodeFuel m val e s := by
  induction n generalizing m val σ with
  | zero => omega
  | succ n ih =>
    cases m with
    | zero => omega
    | succ m =>
      simp only [encodeFuel]
      apply encodeBody_congr
      · rintro ⟨fs, rfl⟩ name s1
        simp only [depth] at hn hm
        exact ih m (.str false name) (by simp only [depth]; omega) (by simp only [depth]; omega) _ _
      · intro c hc σ1 e1 s1
        exact ih m c (by omega) (by omega) e1 s1

/-- The method `Encode` satisfies the recursion of the Go source. -/
theorem Encode_eq_encodeBody (val : GoVal) {σ : Type} (e : Writer σ) (s : σ) :
    Encode val e s = encodeBody (fun c _ e1 s1 => Encode c e1 s1) val e s := by
  have h0 : Encode val e s = encodeBody (encodeFuel (depth val)) val e s := rfl
  rw [h0]
  apply encodeBody_congr
  · rintro ⟨fs, rfl⟩ name s1
    show encodeFuel _ _ _ _ = encodeFuel _ _ _ _
    exact encodeFuel_stable _ _ _ (by simp [depth]) (by simp [depth]) _ _
  · intro c hc σ1 e1 s1
    show encodeFuel _ _ _ _ = encodeFuel _ _ _ _
    exact encodeFuel_stable _ _ _ hc (Nat.lt_succ_self _) _ _

/-! ## The recursion equations of `Encode` -/

theorem Encode_nil {σ : Type} (e : Writer σ) (s : σ) :
    Encode .nil e s = Fprintf e s (ascii "0:~") := rfl

theorem Encode_str {σ : Type} (named : Bool) (b : Bytes) (e : Writer σ) (s : σ) :
    Encode (.str named b) e s
      = if named then (s, .panic) else Fprintf e s (frame b tagString) := rfl

theorem Encode_int {σ : Type} (k : IntKind) (n : Int) (e : Writer σ) (s : σ) :
    Encode (.int k n) e s = Fprintf e s (frame (fmtInt n) tagInteger) := rfl

theorem Encode_float {σ : Type} (k : FloatKind) (x : GoFloat) (e : Writer σ) (s : σ) :
    Encode (.float k x) e s = Fprintf e s (frame (fmtFloat x) tagFloat) := rfl

theorem Encode_bool {σ : Type} (named b : Bool) (e : Writer σ) (s : σ) :
    Encode (.bool named b) e s
      = if named then (s, .panic) else Fprintf e s (frame (FormatBool b) tagBoolean) := rfl

theorem Encode_other {σ : Type} (t : GoType) (e : Writer σ) (s : σ) :
    Encode (.other t) e s = (s, .error (.unsupportedType t)) := rfl

theorem Encode_nilPtr {σ : Type} (e : Writer σ) (s : σ) :
    Encode (.ptr none) e s = (s, .panic) := rfl

theorem Encode_ptr {σ : Type} (x : GoVal) (e : Writer σ) (s : σ) :
    Encode (.ptr (some x)) e s = Encode x e s :=
  Encode_eq_encodeBody _ e s

theorem Encode_map {σ : Type} (key : GoType) (es : List (GoVal × GoVal)) (e : Writer σ) (s : σ) :
    Encode (.map key es) e s = encodeMap Encode key es e s :=
  Encode_eq_encodeBody _ e s

theorem Encode_struct {σ : Type} (fs : List (StructField GoVal)) (e : Writer σ) (s : σ) :
    Encode (.struct fs) e s = encodeStruct Encode fs e s :=
  Encode_eq_encodeBody _ e s

theorem Encode_slice {σ : Type} (elem : GoType) (xs : List GoVal) (e : Writer σ) (s : σ) :
    Encode (.slice elem xs) e s = encodeSlice Encode elem xs e s :=
  Encode_eq_encodeBody _ e s

theorem Fprintf_bufferWriter (buf out : Bytes) :
    Fprintf bufferWriter buf out = (buf ++ out, .ok) := rfl

theorem Fprintf_ne_exhausted {σ : Type} (e : Writer σ) (s : σ) (out : Bytes) :
    (Fprintf e s out).2 ≠ .exhausted := by
  unfold Fprintf
  rcases e.write s out with ⟨s1, _ | err⟩ <;> simp

/-! ## One write per call -/

/-- What `Encode` does on any sink is determined by what it writes to an empty
buffer: on success these bytes go to the sink in a single `Write`; on failure the
sink is not touched. -/
theorem Encode_sink (val : GoVal) {σ : Type} (e : Writer σ) (s : σ) :
    Encode val e s =
      match Encode val bufferWriter [] with
      | (out, .ok) => Fprintf e s out
      | (_, r) => (s, r) := by
  induction val using GoVal.induction_children generalizing σ with
  | nil => rfl
  | str named b => cases named <;> rfl
  | int k n => rfl
  | float k x => rfl
  | bool named b => cases named <;> rfl
  | nilPtr => rfl
  | other t => rfl
  | formattedInt k n out => rfl
  | formattedFloat k x out => rfl
  | formattedBytes b out => rfl
  | ptr x ih => rw [Encode_ptr, Encode_ptr]; exact ih e s
  | map key es _ =>
    rw [Encode_map, Encode_map]
    simp only [encodeMap]
    rcases encodeMapLoop Encode bufferWriter _ [] with ⟨buf, o⟩
    cases o <;> rfl
  | struct fs _ =>
    rw [Encode_struct, Encode_struct]
    simp only [encodeStruct]
    rcases encodeStructLoop Encode bufferWriter _ [] with ⟨buf, o⟩
    cases o <;> rfl
  | slice elem xs _ =>
    rw [Encode_slice, Encode_slice]
    simp only [encodeSlice]
    split
    · rfl
    · rcases encodeSliceLoop Encode bufferWriter _ [] with ⟨buf, o⟩
      cases o <;> rfl

/-- A successful call on a buffer appends what it writes to an empty buffer. -/
theorem Encode_buffer_ok {val : GoVal} {out : Bytes} (h : Encode val bufferWriter [] = (out, .ok))
    (buf : Bytes) : Encode val bufferWriter buf = (buf ++ out, .ok) := by
  rw [Encode_sink, h]
  rfl

/-- A failed call leaves the sink as it was. -/
theorem Encode_fail_state (val : GoVal) {σ : Type} (e : Writer σ) (s : σ)
    (h : (Encode val bufferWriter []).2 ≠ .ok) :
    Encode val e s = (s, (Encode val bufferWriter []).2) := by
  rw [Encode_sink]
  generalize Encode val bufferWriter [] = r at h
  obtain ⟨out, o⟩ := r
  cases o <;> simp_all

/-- On any sink the call succeeds on the buffer if it succeeds at all. -/
theorem Encode_ok_buffer {val : GoVal} {σ : Type} {e : Writer σ} {s s1 : σ}
    (h : Encode val e s = (s1, .ok)) :
    ∃ out, Encode val bufferWriter [] = (out, .ok) ∧ Fprintf e s out = (s1, .ok) := by
  rw [Encode_sink] at h
  rcases hb : Encode val bufferWriter [] with ⟨out, o⟩
  rw [hb] at h
  cases o <;> simp_all

/-! ## Decimal numerals -/

theorem natDigits_fuel (n : Nat) : ∀ f1 f2, n < f1 → n < f2 → natDigits f1 n = natDigits f2 n := by
  induction n using Nat.strong_induction_on with
  | _ n ih =>
    intro f1 f2 h1 h2
    cases f1 with
    | zero => omega
    | succ f1 =>
      cases f2 with
      | zero => omega
      | succ f2 =>
        simp only [natDigits]
        split
        · rfl
        · rw [ih (n / 10) (by omega) f1 f2 (by omega) (by omega)]

/-- The recursion of decimal rendering: the last digit follows the rendering of
the tenth. -/
theorem decimal_eq (n : Nat) :
    decimal n = if n < 10 then [48 + n] else decimal (n / 10) ++ [48 + n % 10] := by
  unfold decimal
  rw [natDigits]
  split
  · rfl
  · rw [natDigits_fuel (n / 10) n (n / 10 + 1) (by omega) (by omega)]

theorem parseNat_append_singleton (d : Bytes) (b : Nat) :
    parseNat (d ++ [b]) = parseNat d * 10 + (b - 48) := by
  simp [parseNat, List.foldl_append]

theorem parseNat_decimal (n : Nat) : parseNat (decimal n) = n := by
  induction n using Nat.strong_induction_on with
  | _ n ih =>
    rw [decimal_eq]
    split
    · simp [parseNat]
    · rw [parseNat_append_singleton, ih (n / 10) (by omega)]
      omega

theorem decimal_digits (n : Nat) : ∀ b ∈ decimal n, 48 ≤ b ∧ b ≤ 57 := by
  induction n using Nat.strong_induction_on with
  | _ n ih =>
    rw [decimal_eq]
    split
    · intro b hb
      simp only [List.mem_singleton] at hb
      omega
    · intro b hb
      rcases List.mem_append.1 hb with hb | hb
      · exact ih (n / 10) (by omega) b hb
      · simp only [List.mem_singleton] at hb
        omega

theorem decimal_ne_nil (n : Nat) : decimal n ≠ [] := by
  rw [decimal_eq]
  split <;> simp

theorem decimal_head (n : Nat) (h : 0 < n) : (decimal n).head? ≠ some 48 := by
  induction n using Nat.strong_induction_on with
  | _ n ih =>
    rw [decimal_eq]
    split
    · simp only [List.head?_cons, ne_eq, Option.some.injEq]
      omega
    · have h1 := ih (n / 10) (by omega) (by omega)
      have h2 := decimal_ne_nil (n / 10)
      cases hd : decimal (n / 10) with
      | nil => exact absurd hd h2
      | cons a l =>
        rw [hd] at h1
        simpa using h1

/-- The verb `%d` renders a length canonically. -/
theorem decimal_canonical (n : Nat) : CanonicalDecimal (decimal n) n := by
  refine ⟨decimal_ne_nil n, decimal_digits n, ?_, parseNat_decimal n⟩
  intro h
  rcases Nat.eq_zero_or_pos n with rfl | hpos
  · rfl
  · exact absurd h (decimal_head n hpos)

/-! ## Every output is one frame -/

/-- What a successful call writes to an empty buffer is a frame with one of the
seven tags. -/
theorem Encode_buffer_frame (val : GoVal) :
    ∀ out, Encode val bufferWriter [] = (out, .ok) → ∃ P t, t ∈ tags ∧ out = frame P t := by
  induction val using GoVal.induction_children with
  | nil => intro out h; exact ⟨[], tagNull, by decide, by cases h; decide⟩
  | str named b =>
    intro out h
    cases named
    · exact ⟨b, tagString, by decide, by cases h; rfl⟩
    · cases h
  | int k n => intro out h; exact ⟨fmtInt n, tagInteger, by decide, by cases h; rfl⟩
  | float k x => intro out h; exact ⟨fmtFloat x, tagFloat, by decide, by cases h; rfl⟩
  | bool named b =>
    intro out h
    cases named
    · exact ⟨FormatBool b, tagBoolean, by decide, by cases h; rfl⟩
    · cases h
  | nilPtr => intro out h; cases h
  | other t => intro out h; cases h
  | formattedInt k n p => intro out h; exact ⟨p, tagInteger, by decide, by cases h; rfl⟩
  | formattedFloat k x p => intro out h; exact ⟨p, tagFloat, by decide, by cases h; rfl⟩
  | formattedBytes b p => intro out h; exact ⟨p, tagString, by decide, by cases h; rfl⟩
  | ptr x ih => intro out h; rw [Encode_ptr] at h; exact ih out h
  | map key es _ =>
    intro out h
    rw [Encode_map] at h
    simp only [encodeMap] at h
    generalize encodeMapLoop Encode bufferWriter _ [] = r at h
    obtain ⟨buf, o⟩ := r
    cases o <;> cases h
    exact ⟨buf, tagDict, by decide, rfl⟩
  | struct fs _ =>
    intro out h
    rw [Encode_struct] at h
    simp only [encodeStruct] at h
    generalize encodeStructLoop Encode bufferWriter _ [] = r at h
    obtain ⟨buf, o⟩ := r
    cases o <;> cases h
    exact ⟨buf, tagDict, by decide, rfl⟩
  | slice elem xs _ =>
    intro out h
    rw [Encode_slice] at h
    simp only [encodeSlice] at h
    split at h
    · exact ⟨sliceBytes xs, tagString, by decide, by cases h; rfl⟩
    · generalize encodeSliceLoop Encode bufferWriter _ [] = r at h
      obtain ⟨buf, o⟩ := r
      cases o <;> cases h
      exact ⟨buf, tagList, by decide, rfl⟩

/-- C1: whenever `Encode` succeeds on a value, of any kind and on any sink, what
it writes (in one `Write`) is `D ++ ":" ++ P ++ [t]`, where `t` is one of the seven
tag bytes, `D` is the canonical base-10 rendering of a number `n`, and `n` is the
byte length of the payload `P`. -/
theorem Encode_writes_frame (val : GoVal) {σ : Type} (e : Writer σ) (s : σ)
    (h : (Encode val e s).2 = .ok) :
    ∃ D P t n, Encode val e s = Fprintf e s (D ++ [58] ++ P ++ [t]) ∧ t ∈ tags ∧
      CanonicalDecimal D n ∧ n = P.length := by
  obtain ⟨out, hout, _⟩ := Encode_ok_buffer (show Encode val e s = ((Encode val e s).1, .ok) by
    rw [← h])
  obtain ⟨P, t, ht, rfl⟩ := Encode_buffer_frame val out hout
  refine ⟨decimal P.length, P, t, P.length, ?_, ht, decimal_canonical _, rfl⟩
  rw [Encode_sink, hout]
  rfl

/-- C1 at a struct holding a non-ASCII string, a float, a list and a pointer. -/
theorem Encode_writes_frame_witness :
    (Encode (.struct [⟨ascii "S", true, none, ⟨.other, true⟩, false, .str false [195, 169]⟩,
        ⟨ascii "F", true, none, ⟨.other, true⟩, false, .float .float64 (.finite true 3 (-1))⟩,
        ⟨ascii "L", true, none, ⟨.other, true⟩, false,
          .slice ⟨.interface, ascii "interface {}"⟩ [.bool false true, .ptr (some .nil)]⟩])
      bufferWriter (ascii "x")).2 = .ok ∧
    ∃ D P t n, Encode (.struct [⟨ascii "S", true, none, ⟨.other, true⟩, false, .str false [195, 169]⟩,
        ⟨ascii "F", true, none, ⟨.other, true⟩, false, .float .float64 (.finite true 3 (-1))⟩,
        ⟨ascii "L", true, none, ⟨.other, true⟩, false,
          .slice ⟨.interface, ascii "interface {}"⟩ [.bool false true, .ptr (some .nil)]⟩])
      bufferWriter (ascii "x") = Fprintf bufferWriter (ascii "x") (D ++ [58] ++ P ++ [t]) ∧
      t ∈ tags ∧ CanonicalDecimal D n ∧ n = P.length :=
  ⟨by decide, Encode_writes_frame _ bufferWriter (ascii "x") (by decide)⟩

theorem Succeeds.buffer_eq {val : GoVal} (h : Succeeds val) :
    Encode val bufferWriter [] = (written val, .ok) := by
  unfold Succeeds at h
  unfold written
  rw [← h]

/-- A successful call writes its frame to the sink in one `Write`. -/
theorem Succeeds.sink_eq {val : GoVal} (h : Succeeds val) {σ : Type} (e : Writer σ) (s : σ) :
    Encode val e s = Fprintf e s (written val) := by
  rw [Encode_sink, h.buffer_eq]

/-! ## Scalars -/

/-- C6: for every string, `Encode` writes the decimal byte count, a colon, the bytes
of the string unaltered, and a comma. The count is the number of bytes, not of
characters: the two bytes of a two-byte character give the count 2. -/
theorem Encode_string :
    (∀ (b : Bytes) {σ : Type} (e : Writer σ) (s : σ),
      Encode (.str false b) e s = Fprintf e s (decimal b.length ++ [58] ++ b ++ [44])) ∧
    Encode (.str false (ascii "hello")) bufferWriter [] = (ascii "5:hello,", .ok) ∧
    Encode (.str false [195, 169]) bufferWriter [] = ([50, 58, 195, 169, 44], .ok) :=
  ⟨fun _ _ _ _ => rfl, by decide, by decide⟩

theorem parseInt_decimal (n : Nat) : parseInt (decimal n) = n := by
  have hd := decimal_digits n
  have hne := decimal_ne_nil n
  have hp := parseNat_decimal n
  cases h : decimal n with
  | nil => exact absurd h hne
  | cons a l =>
    rw [h] at hd hp
    have ha := hd a (List.mem_cons_self _ _)
    unfold parseInt
    split
    · rename_i d heq
      simp only [List.cons.injEq] at heq
      omega
    · rw [hp]

/-- C7: the integer 5 of a defined type of kind `Int` whose `Format` method writes
`<d>` is encoded as `3:<d>#`, while the 5 of type `int` is encoded as `1:5#`: the
verb `%d` is applied to the dynamic value, so the method gives the payload, which
is not the canonical rendering of 5 and does not parse back to 5. -/
theorem Encode_formatted_integer :
    Encode (.formattedInt .int 5 (ascii "<d>")) bufferWriter [] = (ascii "3:<d>#", .ok) ∧
    Encode (.int .int 5) bufferWriter [] = (ascii "1:5#", .ok) ∧
    ¬ CanonicalDecimal (ascii "<d>") 5 ∧
    parseInt (ascii "<d>") ≠ 5 := by
  decide

/-- The integer case for a type without a `Format` method: for every integer of one
of the ten integer kinds, `Encode` writes a frame with tag `#` whose payload is the
canonical decimal rendering of the integer: canonical digits of the absolute
value, preceded by one minus sign exactly when the integer is negative; parsing
the payload gives the integer back. -/
theorem Encode_integer :
    (∀ (k : IntKind) (n : Int) {σ : Type} (e : Writer σ) (s : σ),
      ∃ P d, Encode (.int k n) e s = Fprintf e s (decimal P.length ++ [58] ++ P ++ [35]) ∧
        P = (if n < 0 then [45] else []) ++ d ∧ CanonicalDecimal d n.natAbs ∧
        parseInt P = n) ∧
    Encode (.int .int 123) bufferWriter [] = (ascii "3:123#", .ok) := by
  refine ⟨fun k n σ e s => ⟨fmtInt n, decimal n.natAbs, rfl, ?_, decimal_canonical _, ?_⟩,
    by decide⟩
  · unfold fmtInt
    split <;> rfl
  · unfold fmtInt
    split
    · rename_i h
      show -(parseNat (decimal n.natAbs) : Int) = n
      rw [parseNat_decimal]
      omega
    · rename_i h
      rw [parseInt_decimal]
      omega

/-- C10: on a nil pointer `Encode` panics and writes nothing, whereas the nil
interface is encoded as `0:~`. -/
theorem Encode_nil_pointer_panics :
    (∀ {σ : Type} (e : Writer σ) (s : σ), Encode (.ptr none) e s = (s, .panic)) ∧
    Encode .nil bufferWriter [] = (ascii "0:~", .ok) :=
  ⟨fun _ _ => rfl, by decide⟩

/-! ## Lists -/

/-- The loop of `encodeSlice` on elements that all encode: their frames are
appended to the buffer in order. -/
theorem encodeSliceLoop_ok (xs : List GoVal) (h : ∀ x ∈ xs, Succeeds x) (buf : Bytes) :
    encodeSliceLoop Encode bufferWriter xs buf = (buf ++ (xs.map written).flatten, .ok) := by
  induction xs generalizing buf with
  | nil => simp [encodeSliceLoop]
  | cons x xs ih =>
    simp only [encodeSliceLoop]
    rw [Encode_buffer_ok (h x (List.mem_cons_self _ _)).buffer_eq buf]
    simp only []
    rw [ih (fun y hy => h y (List.mem_cons_of_mem _ hy))]
    simp

/-- C2: for every list whose element type is not a byte and whose elements all
encode, `Encode` writes the frame with tag `]` whose payload is the concatenation,
in order and without separators, of the frames of the elements. -/
theorem Encode_list (elem : GoType) (xs : List GoVal) (helem : elem.kind ≠ .uint8)
    (h : ∀ x ∈ xs, Succeeds x) {σ : Type} (e : Writer σ) (s : σ) :
    Encode (.slice elem xs) e s =
      Fprintf e s (decimal ((xs.map written).flatten).length ++ [58] ++ (xs.map written).flatten ++ [93]) := by
  rw [Encode_slice]
  simp only [encodeSlice, helem, if_false]
  rw [encodeSliceLoop_ok xs h []]
  rfl

/-- C2 at the list `[1, 2, 3]`, which is encoded as `12:1:1#1:2#1:3#]`. -/
theorem Encode_list_witness :
    (∀ x ∈ [GoVal.int .int 1, .int .int 2, .int .int 3], Succeeds x) ∧
    Encode (.slice ⟨.int, ascii "int"⟩ [.int .int 1, .int .int 2, .int .int 3]) bufferWriter []
      = Fprintf bufferWriter [] (ascii "12:1:1#1:2#1:3#]") :=
  ⟨by decide, Encode_list ⟨.int, ascii "int"⟩ [.int .int 1, .int .int 2, .int .int 3]
    (by decide) (by decide) bufferWriter []⟩

/-! ## The order on strings -/

theorem strLess_irrefl (a : Bytes) : strLess a a = false := by
  induction a with
  | nil => rfl
  | cons x xs ih => simp [strLess, ih]

theorem strLess_asymm {a b : Bytes} (h : strLess a b = true) : strLess b a = false := by
  induction a generalizing b with
  | nil => cases b <;> simp_all [strLess]
  | cons x xs ih =>
    cases b with
    | nil => simp [strLess] at h
    | cons y ys =>
      simp only [strLess] at h ⊢
      split_ifs at h ⊢
      all_goals first | omega | rfl | exact ih h

theorem strLess_total {a b : Bytes} (h1 : strLess a b = false) (h2 : strLess b a = false) :
    a = b := by
  induction a generalizing b with
  | nil => cases b <;> simp_all [strLess]
  | cons x xs ih =>
    cases b with
    | nil => simp [strLess] at h2
    | cons y ys =>
      simp only [strLess] at h1 h2
      split_ifs at h1 h2
      have hxy : x = y := by omega
      rw [hxy, ih h1 h2]

/-- Not being less is transitive: the order on strings is total. -/
theorem strLess_negTrans {a b c : Bytes} (h1 : strLess a b = false) (h2 : strLess b c = false) :
    strLess a c = false := by
  induction a generalizing b c with
  | nil =>
    cases b with
    | nil => exact h2
    | cons y ys => simp [strLess] at h1
  | cons x xs ih =>
    cases b with
    | nil =>
      cases c with
      | nil => rfl
      | cons z zs => simp [strLess] at h2
    | cons y ys =>
      cases c with
      | nil => rfl
      | cons z zs =>
        simp only [strLess] at h1 h2 ⊢
        split_ifs at h1 h2 ⊢
        all_goals first | omega | rfl | simp at h1 | simp at h2 | exact ih h1 h2

/-! ## The sort sorts -/

theorem insertLast_pairwise {α : Type} (less : α → α → Bool)
    (hasym : ∀ a b, less a b = true → less b a = false)
    (hnt : ∀ a b c, less a b = false → less b c = false → less a c = false)
    (x : α) (l : List α) (hl : l.Pairwise (fun a b => less a b = false)) :
    (insertLast less x l).Pairwise (fun a b => less a b = false) := by
  induction l with
  | nil => simp [insertLast]
  | cons y ys ih =>
    rw [List.pairwise_cons] at hl
    unfold insertLast
    split
    · rename_i hxy
      rw [List.pairwise_cons]
      refine ⟨fun z hz => ?_, ih hl.2⟩
      rcases List.mem_cons.1 ((insertLast_perm less x ys).mem_iff.1 hz) with rfl | hz
      · exact hasym _ _ hxy
      · exact hl.1 z hz
    · rename_i hxy
      rw [List.pairwise_cons]
      refine ⟨fun z hz => ?_, List.pairwise_cons.2 hl⟩
      have hxy' : less x y = false := by simpa using hxy
      rcases List.mem_cons.1 hz with rfl | hz
      · exact hxy'
      · exact hnt _ _ _ hxy' (hl.1 z hz)

theorem foldl_insertLast_pairwise {α : Type} (less : α → α → Bool)
    (hasym : ∀ a b, less a b = true → less b a = false)
    (hnt : ∀ a b c, less a b = false → less b c = false → less a c = false)
    (xs acc : List α) (hacc : acc.Pairwise (fun a b => less a b = false)) :
    (xs.foldl (fun acc x => insertLast less x acc) acc).Pairwise (fun a b => less a b = false) := by
  induction xs generalizing acc with
  | nil => exact hacc
  | cons x xs ih => exact ih _ (insertLast_pairwise less hasym hnt x acc hacc)

/-- The result of the sort is in order: no element is less than an earlier one. -/
theorem sortSlice_sorted {α : Type} (less : α → α → Bool)
    (hasym : ∀ a b, less a b = true → less b a = false)
    (hnt : ∀ a b c, less a b = false → less b c = false → less a c = false)
    (xs : List α) : (sortSlice less xs).Pairwise (fun a b => less b a = false) := by
  unfold sortSlice
  rw [List.pairwise_reverse]
  exact foldl_insertLast_pairwise less hasym hnt xs [] List.Pairwise.nil

/-- There is only one sorted arrangement: whenever some arrangement of `xs` is
strictly ascending, the sort returns it. -/
theorem sortSlice_unique {α : Type} (less : α → α → Bool)
    (hasym : ∀ a b, less a b = true → less b a = false)
    (hnt : ∀ a b c, less a b = false → less b c = false → less a c = false)
    (xs sorted : List α) (hperm : sorted.Perm xs)
    (hsorted : sorted.Pairwise (fun a b => less a b = true)) :
    sortSlice less xs = sorted := by
  have hp : (sortSlice less xs).Perm sorted := (sortSlice_perm less xs).trans hperm.symm
  have h1 := sortSlice_sorted less hasym hnt xs
  have h2 : sorted.Pairwise (fun a b => less a b = true ∨ less b a = true) :=
    hsorted.imp (fun h => Or.inl h)
  have h3 : (sortSlice less xs).Pairwise (fun a b => less a b = true ∨ less b a = true) :=
    (hp.pairwise_iff (fun h => h.symm)).2 h2
  have h4 : (sortSlice less xs).Pairwise (fun a b => less a b = true) :=
    (h1.and h3).imp (fun h => by
      rcases h.2 with h5 | h5
      · exact h5
      · rw [h.1] at h5
        cases h5)
  haveI : IsAntisymm α (fun a b => less a b = true) :=
    ⟨fun a b hab hba => by rw [hasym a b hab] at hba; cases hba⟩
  exact List.eq_of_perm_of_sorted hp h4 hsorted

/-! ## Maps -/

/-- The loop of `encodeMap` on keys and values that all encode, with keys that
the lookup finds: for every entry the frame of the key and then the frame of the
value are appended. -/
theorem encodeMapLoop_ok (ks : List (GoVal × GoVal))
    (h : ∀ p ∈ ks, Succeeds p.1 ∧ lookupMisses p.1 = false ∧ Succeeds p.2) (buf : Bytes) :
    encodeMapLoop Encode bufferWriter ks buf
      = (buf ++ (ks.map fun p => written p.1 ++ written p.2).flatten, .ok) := by
  induction ks generalizing buf with
  | nil => simp [encodeMapLoop]
  | cons p ks ih =>
    obtain ⟨k, v⟩ := p
    have hp := h (k, v) (List.mem_cons_self _ _)
    simp only [encodeMapLoop]
    rw [Encode_buffer_ok hp.1.buffer_eq buf]
    simp only []
    rw [if_neg (by simp [hp.2.1]), Encode_buffer_ok hp.2.2.buffer_eq]
    simp only []
    rw [ih (fun q hq => h q (List.mem_cons_of_mem _ hq))]
    simp

/-- A map with string keys is encoded with its entries in the one strictly
ascending arrangement of the keys. -/
theorem Encode_map_sorted (key : GoType) (hkey : key.kind = .string)
    (m sorted : List (Bytes × GoVal)) (hperm : sorted.Perm m)
    (hsorted : sorted.Pairwise (fun a b => strLess a.1 b.1 = true))
    (hval : ∀ p ∈ m, Succeeds p.2) {σ : Type} (e : Writer σ) (s : σ) :
    Encode (.map key (m.map fun p => (GoVal.str false p.1, p.2))) e s =
      Fprintf e s (frame
        (sorted.map fun p => frame p.1 tagString ++ written p.2).flatten tagDict) := by
  have hsort : sortSlice (fun a b : GoVal × GoVal =>
        strLess (valueString key a.1) (valueString key b.1))
      (m.map fun p => (GoVal.str false p.1, p.2))
      = sorted.map fun p => (GoVal.str false p.1, p.2) := by
    apply sortSlice_unique
    · intro a b h
      exact strLess_asymm h
    · intro a b c h1 h2
      exact strLess_negTrans h1 h2
    · exact hperm.map _
    · rw [List.pairwise_map]
      refine hsorted.imp ?_
      intro a b h
      simpa [valueString, hkey] using h
  rw [Encode_map]
  simp only [encodeMap]
  rw [hsort, encodeMapLoop_ok]
  · simp only [List.map_map]
    rfl
  · intro p hp
    obtain ⟨q, hq, rfl⟩ := List.mem_map.1 hp
    exact ⟨rfl, rfl, hval q (hperm.mem_iff.1 hq)⟩

/-- C3: for every map whose keys are strings and whose values all encode, `Encode`
writes the frame with tag `}` whose payload is the concatenation, over the entries
in ascending byte-wise order of the keys, of the string frame of the key followed
by the frame of the value. Here `m` lists the entries in the order in which the
map delivers them, and `sorted` is the arrangement of the same entries in which
the keys ascend strictly. -/
theorem Encode_map_text (key : GoType) (hkey : key.kind = .string)
    (m sorted : List (Bytes × GoVal)) (hperm : sorted.Perm m)
    (hsorted : sorted.Pairwise (fun a b => strLess a.1 b.1 = true))
    (hval : ∀ p ∈ m, Succeeds p.2) {σ : Type} (e : Writer σ) (s : σ) :
    Encode (.map key (m.map fun p => (GoVal.str false p.1, p.2))) e s =
      Fprintf e s (frame
        (sorted.map fun p => (decimal p.1.length ++ [58] ++ p.1 ++ [44]) ++ written p.2).flatten
        125) :=
  Encode_map_sorted key hkey m sorted hperm hsorted hval e s

/-- C3 at the map holding 1 under `b` and 2 under `a`, delivered with `b` first:
the key `a` is written first. The map holding 1 under `a` is encoded as
`8:1:a,1:1#` followed by the closing brace. -/
theorem Encode_map_text_witness :
    ([(ascii "a", GoVal.int .int 2), (ascii "b", GoVal.int .int 1)].Perm
        [(ascii "b", GoVal.int .int 1), (ascii "a", GoVal.int .int 2)]) ∧
    Encode (.map ⟨.string, ascii "string"⟩
        [(.str false (ascii "b"), .int .int 1), (.str false (ascii "a"), .int .int 2)])
      bufferWriter [] = (ascii "16:1:a,1:2#1:b,1:1#\x7d", .ok) ∧
    Encode (.map ⟨.string, ascii "string"⟩ [(.str false (ascii "a"), .int .int 1)])
      bufferWriter [] = (ascii "8:1:a,1:1#\x7d", .ok) :=
  ⟨List.Perm.swap _ _ _,
    Encode_map_text ⟨.string, ascii "string"⟩ rfl
      [(ascii "b", .int .int 1), (ascii "a", .int .int 2)]
      [(ascii "a", .int .int 2), (ascii "b", .int .int 1)]
      (List.Perm.swap _ _ _) (by decide) (by decide) bufferWriter [],
    by decide⟩

/-- C4: a map with the integer keys 1 and 2 is encoded differently for the two
orders in which the map can deliver its keys: every integer key has the same
`reflect.Value.String()`, so the sort leaves the keys as they come. -/
theorem Encode_map_int_keys_order :
    Encode (.map ⟨.int, ascii "int"⟩
        [(.int .int 1, .int .int 10), (.int .int 2, .int .int 20)]) bufferWriter []
      = (ascii "18:1:1#2:10#1:2#2:20#\x7d", .ok) ∧
    Encode (.map ⟨.int, ascii "int"⟩
        [(.int .int 2, .int .int 20), (.int .int 1, .int .int 10)]) bufferWriter []
      = (ascii "18:1:2#2:20#1:1#2:10#\x7d", .ok) ∧
    Encode (.map ⟨.int, ascii "int"⟩
        [(.int .int 1, .int .int 10), (.int .int 2, .int .int 20)]) bufferWriter []
      ≠ Encode (.map ⟨.int, ascii "int"⟩
        [(.int .int 2, .int .int 20), (.int .int 1, .int .int 10)]) bufferWriter [] := by
  decide

/-! ## Calls on a buffer -/

/-- On a buffer a call either succeeds and appends its frame, or fails and leaves
the buffer as it was. -/
theorem Encode_buffer_cases (val : GoVal) (buf : Bytes) :
    (Succeeds val ∧ Encode val bufferWriter buf = (buf ++ written val, .ok)) ∨
    (¬ Succeeds val ∧ Encode val bufferWriter buf = (buf, (Encode val bufferWriter []).2)) := by
  by_cases h : Succeeds val
  · exact Or.inl ⟨h, Encode_buffer_ok h.buffer_eq buf⟩
  · exact Or.inr ⟨h, Encode_fail_state val bufferWriter buf h⟩

theorem Succeeds_str (name : Bytes) : Succeeds (.str false name) := rfl

theorem written_str (name : Bytes) : written (.str false name) = frame name tagString := rfl

/-- If the loop of `encodeSlice` succeeds, every element encodes. -/
theorem encodeSliceLoop_ok_inv (xs : List GoVal) (buf out : Bytes)
    (h : encodeSliceLoop Encode bufferWriter xs buf = (out, .ok)) : ∀ x ∈ xs, Succeeds x := by
  induction xs generalizing buf with
  | nil => intro x hx; cases hx
  | cons y ys ih =>
    simp only [encodeSliceLoop] at h
    rcases Encode_buffer_cases y buf with ⟨hy, he⟩ | ⟨hy, he⟩
    · rw [he] at h
      intro x hx
      rcases List.mem_cons.1 hx with rfl | hx
      · exact hy
      · exact ih _ h x hx
    · rw [he] at h
      exfalso
      unfold Succeeds at hy
      generalize (Encode y bufferWriter []).2 = o at h hy
      cases o <;> simp at h hy

/-- If the loop of `encodeSlice` fails, its outcome is that of an element that
does not encode. -/
theorem encodeSliceLoop_outcome (xs : List GoVal) (buf : Bytes) :
    (encodeSliceLoop Encode bufferWriter xs buf).2 = .ok ∨
    ∃ x ∈ xs, ¬ Succeeds x ∧
      (encodeSliceLoop Encode bufferWriter xs buf).2 = (Encode x bufferWriter []).2 := by
  induction xs generalizing buf with
  | nil => exact Or.inl rfl
  | cons y ys ih =>
    simp only [encodeSliceLoop]
    rcases Encode_buffer_cases y buf with ⟨hy, he⟩ | ⟨hy, he⟩
    · rw [he]
      rcases ih (buf ++ written y) with h | ⟨x, hx, hns, h⟩
      · exact Or.inl h
      · exact Or.inr ⟨x, List.mem_cons_of_mem _ hx, hns, h⟩
    · rw [he]
      refine Or.inr ⟨y, List.mem_cons_self _ _, hy, ?_⟩
      unfold Succeeds at hy
      generalize (Encode y bufferWriter []).2 = o at hy
      cases o <;> simp at hy ⊢

/-- If the loop of `encodeMap` succeeds, every key and every value encodes, and
the lookup finds every key. -/
theorem encodeMapLoop_ok_inv (ks : List (GoVal × GoVal)) (buf out : Bytes)
    (h : encodeMapLoop Encode bufferWriter ks buf = (out, .ok)) :
    ∀ p ∈ ks, Succeeds p.1 ∧ lookupMisses p.1 = false ∧ Succeeds p.2 := by
  induction ks generalizing buf with
  | nil => intro x hx; cases hx
  | cons q qs ih =>
    obtain ⟨k, v⟩ := q
    simp only [encodeMapLoop] at h
    rcases Encode_buffer_cases k buf with ⟨hk, he⟩ | ⟨hk, he⟩
    · rw [he] at h
      simp only [] at h
      by_cases hm : lookupMisses k = true
      · rw [if_pos hm] at h
        cases h
      · rw [if_neg hm] at h
        rcases Encode_buffer_cases v (buf ++ written k) with ⟨hv, hev⟩ | ⟨hv, hev⟩
        · rw [hev] at h
          intro p hp
          rcases List.mem_cons.1 hp with rfl | hp
          · exact ⟨hk, by simpa using hm, hv⟩
          · exact ih _ h p hp
        · rw [hev] at h
          exfalso
          unfold Succeeds at hv
          generalize (Encode v bufferWriter []).2 = o at h hv
          cases o <;> simp at h hv
    · rw [he] at h
      exfalso
      unfold Succeeds at hk
      generalize (Encode k bufferWriter []).2 = o at h hk
      cases o <;> simp at h hk

/-- If the loop of `encodeMap` fails, it panics on a key that the lookup misses,
or its outcome is that of a key or a value that does not encode. -/
theorem encodeMapLoop_outcome (ks : List (GoVal × GoVal)) (buf : Bytes) :
    (encodeMapLoop Encode bufferWriter ks buf).2 = .ok ∨
    (encodeMapLoop Encode bufferWriter ks buf).2 = .panic ∨
    ∃ p ∈ ks, ∃ x, (x = p.1 ∨ x = p.2) ∧ ¬ Succeeds x ∧
      (encodeMapLoop Encode bufferWriter ks buf).2 = (Encode x bufferWriter []).2 := by
  induction ks generalizing buf with
  | nil => exact Or.inl rfl
  | cons q qs ih =>
    obtain ⟨k, v⟩ := q
    simp only [encodeMapLoop]
    rcases Encode_buffer_cases k buf with ⟨hk, he⟩ | ⟨hk, he⟩
    · rw [he]
      simp only []
      by_cases hm : lookupMisses k = true
      · rw [if_pos hm]
        exact Or.inr (Or.inl rfl)
      · rw [if_neg hm]
        rcases Encode_buffer_cases v (buf ++ written k) with ⟨hv, hev⟩ | ⟨hv, hev⟩
        · rw [hev]
          rcases ih (buf ++ written k ++ written v) with h | h | ⟨p, hp, x, hx, hns, h⟩
          · exact Or.inl h
          · exact Or.inr (Or.inl h)
          · exact Or.inr (Or.inr ⟨p, List.mem_cons_of_mem _ hp, x, hx, hns, h⟩)
        · rw [hev]
          refine Or.inr (Or.inr ⟨(k, v), List.mem_cons_self _ _, v, Or.inr rfl, hv, ?_⟩)
          unfold Succeeds at hv
          generalize (Encode v bufferWriter []).2 = o at hv
          cases o <;> simp at hv ⊢
    · rw [he]
      refine Or.inr (Or.inr ⟨(k, v), List.mem_cons_self _ _, k, Or.inl rfl, hk, ?_⟩)
      unfold Succeeds at hk
      generalize (Encode k bufferWriter []).2 = o at hk
      cases o <;> simp at hk ⊢

/-! ## Structs -/

/-- One round of the loop of `encodeStruct`. -/
theorem encodeStructLoop_cons (enc : EncodeFn) {σ : Type} (f : Writer σ)
    (fld : StructField GoVal) (fs : List (StructField GoVal)) (s : σ) :
    encodeStructLoop enc f (fld :: fs) s =
      if (field fld).2.2 = true then
        match enc (.str false (field fld).1) f s with
        | (s1, .ok) =>
          match enc fld.val f s1 with
          | (s2, .ok) => encodeStructLoop enc f fs s2
          | r => r
        | r => r
      else encodeStructLoop enc f fs s := by
  have hv := field_val fld
  simp only [encodeStructLoop]
  generalize field fld = r at hv ⊢
  obtain ⟨name, val, ok⟩ := r
  cases ok
  · simp
  · simp only [forall_true_left] at hv
    subst hv
    simp

theorem includedPairs_cons (fld : StructField GoVal) (fs : List (StructField GoVal)) :
    includedPairs (fld :: fs) =
      if (field fld).2.2 = true then ((field fld).1, fld.val) :: includedPairs fs
      else includedPairs fs := by
  unfold includedPairs
  rw [List.filterMap_cons]
  by_cases h : (field fld).2.2 = true
  · simp [h, field_val fld h]
  · simp [h]

/-- The loop of `encodeStruct` on fields whose included values all encode: for
every included field the string frame of its key and then the frame of its value
are appended, in declaration order. -/
theorem encodeStructLoop_ok (fs : List (StructField GoVal))
    (h : ∀ f ∈ fs, (field f).2.2 = true → Succeeds f.val) (buf : Bytes) :
    encodeStructLoop Encode bufferWriter fs buf
      = (buf ++ ((includedPairs fs).map fun p => frame p.1 tagString ++ written p.2).flatten,
          .ok) := by
  induction fs generalizing buf with
  | nil => simp [encodeStructLoop, includedPairs]
  | cons fld fs ih =>
    have ih' := ih (fun g hg => h g (List.mem_cons_of_mem _ hg))
    rw [encodeStructLoop_cons, includedPairs_cons]
    by_cases hinc : (field fld).2.2 = true
    · simp only [hinc, if_true]
      rw [Encode_buffer_ok (Succeeds_str _).buffer_eq buf]
      simp only []
      rw [Encode_buffer_ok (h fld (List.mem_cons_self _ _) hinc).buffer_eq]
      simp only []
      rw [ih', written_str]
      simp
    · simp only [hinc, if_false]
      exact ih' buf

/-- If the loop of `encodeStruct` succeeds, the value of every included field
encodes. -/
theorem encodeStructLoop_ok_inv (fs : List (StructField GoVal)) (buf out : Bytes)
    (h : encodeStructLoop Encode bufferWriter fs buf = (out, .ok)) :
    ∀ f ∈ fs, (field f).2.2 = true → Succeeds f.val := by
  induction fs generalizing buf with
  | nil => intro x hx; cases hx
  | cons fld fs ih =>
    rw [encodeStructLoop_cons] at h
    by_cases hinc : (field fld).2.2 = true
    · simp only [hinc, if_true] at h
      rw [Encode_buffer_ok (Succeeds_str _).buffer_eq buf] at h
      simp only [] at h
      rcases Encode_buffer_cases fld.val (buf ++ written (.str false (field fld).1))
        with ⟨hv, hev⟩ | ⟨hv, hev⟩
      · rw [hev] at h
        intro g hg hginc
        rcases List.mem_cons.1 hg with rfl | hg
        · exact hv
        · exact ih _ h g hg hginc
      · rw [hev] at h
        exfalso
        unfold Succeeds at hv
        generalize (Encode fld.val bufferWriter []).2 = o at h hv
        cases o <;> simp at h hv
    · simp only [hinc, if_false] at h
      intro g hg hginc
      rcases List.mem_cons.1 hg with rfl | hg
      · exact absurd hginc hinc
      · exact ih _ h g hg hginc

/-- If the loop of `encodeStruct` fails, its outcome is that of the value of an
included field that does not encode. -/
theorem encodeStructLoop_outcome (fs : List (StructField GoVal)) (buf : Bytes) :
    (encodeStructLoop Encode bufferWriter fs buf).2 = .ok ∨
    ∃ f ∈ fs, (field f).2.2 = true ∧ ¬ Succeeds f.val ∧
      (encodeStructLoop Encode bufferWriter fs buf).2 = (Encode f.val bufferWriter []).2 := by
  induction fs generalizing buf with
  | nil => exact Or.inl rfl
  | cons fld fs ih =>
    rw [encodeStructLoop_cons]
    by_cases hinc : (field fld).2.2 = true
    · simp only [hinc, if_true]
      rw [Encode_buffer_ok (Succeeds_str _).buffer_eq buf]
      simp only []
      rcases Encode_buffer_cases fld.val (buf ++ written (.str false (field fld).1))
        with ⟨hv, hev⟩ | ⟨hv, hev⟩
      · rw [hev]
        rcases ih (buf ++ written (.str false (field fld).1) ++ written fld.val)
          with h | ⟨g, hg, hginc, hns, h⟩
        · exact Or.inl h
        · exact Or.inr ⟨g, List.mem_cons_of_mem _ hg, hginc, hns, h⟩
      · rw [hev]
        refine Or.inr ⟨fld, List.mem_cons_self _ _, hinc, hv, ?_⟩
        unfold Succeeds at hv
        generalize (Encode fld.val bufferWriter []).2 = o at hv
        cases o <;> simp at hv ⊢
    · simp only [hinc, if_false]
      rcases ih buf with h | ⟨g, hg, hginc, hns, h⟩
      · exact Or.inl h
      · exact Or.inr ⟨g, List.mem_cons_of_mem _ hg, hginc, hns, h⟩

theorem mem_includedPairs {fs : List (StructField GoVal)} {p : Bytes × GoVal}
    (h : p ∈ includedPairs fs) : ∃ f ∈ fs, (field f).2.2 = true ∧ p.2 = f.val := by
  unfold includedPairs at h
  obtain ⟨f, hf, hp⟩ := List.mem_filterMap.1 h
  by_cases hinc : (field f).2.2 = true
  · simp only [hinc, if_true, Option.some.injEq] at hp
    exact ⟨f, hf, hinc, by rw [← hp]; exact field_val f hinc⟩
  · simp [hinc] at hp

/-- A struct is encoded with its included fields in declaration order. -/
theorem Encode_struct_included (fs : List (StructField GoVal))
    (hval : ∀ f ∈ fs, (field f).2.2 = true → Succeeds f.val) {σ : Type} (e : Writer σ) (s : σ) :
    Encode (.struct fs) e s =
      Fprintf e s (frame
        ((includedPairs fs).map fun p => frame p.1 tagString ++ written p.2).flatten tagDict) := by
  rw [Encode_struct]
  simp only [encodeStruct]
  rw [encodeStructLoop_ok fs hval []]
  rfl

/-- C9, as a counterexample: the struct with the fields `B = 1` and `A = 2`, in
this order, is encoded with `B` first, whereas the map with the same two entries
is encoded with `A` first, in whichever order the map delivers its keys. -/
theorem Encode_struct_not_sorted :
    Encode (.struct [⟨ascii "B", true, none, ⟨.other, true⟩, false, .int .int 1⟩,
        ⟨ascii "A", true, none, ⟨.other, true⟩, false, .int .int 2⟩]) bufferWriter []
      = (ascii "16:1:B,1:1#1:A,1:2#\x7d", .ok) ∧
    Encode (.map ⟨.string, ascii "string"⟩
        [(.str false (ascii "B"), .int .int 1), (.str false (ascii "A"), .int .int 2)])
      bufferWriter [] = (ascii "16:1:A,1:2#1:B,1:1#\x7d", .ok) ∧
    Encode (.map ⟨.string, ascii "string"⟩
        [(.str false (ascii "A"), .int .int 2), (.str false (ascii "B"), .int .int 1)])
      bufferWriter [] = (ascii "16:1:A,1:2#1:B,1:1#\x7d", .ok) ∧
    Encode (.struct [⟨ascii "B", true, none, ⟨.other, true⟩, false, .int .int 1⟩,
        ⟨ascii "A", true, none, ⟨.other, true⟩, false, .int .int 2⟩]) bufferWriter []
      ≠ Encode (.map ⟨.string, ascii "string"⟩
        [(.str false (ascii "B"), .int .int 1), (.str false (ascii "A"), .int .int 2)])
      bufferWriter [] := by
  decide

/-- C9, amended: for every struct whose included field values all encode, `Encode`
writes the frame with tag `}` whose payload is the concatenation, in the order in
which the fields are declared, of the string frame of each included field's key
followed by the frame of its value. When the keys of the included fields ascend
strictly in declaration order, these are the bytes that `Encode` writes for the
string-keyed map holding the same pairs, in whichever order the map delivers them. -/
theorem Encode_struct_pairs (fs : List (StructField GoVal))
    (hval : ∀ f ∈ fs, (field f).2.2 = true → Succeeds f.val) {σ : Type} (e : Writer σ) (s : σ) :
    Encode (.struct fs) e s =
      Fprintf e s (frame
        ((includedPairs fs).map fun p =>
          (decimal p.1.length ++ [58] ++ p.1 ++ [44]) ++ written p.2).flatten 125) ∧
    ((includedPairs fs).Pairwise (fun a b => strLess a.1 b.1 = true) →
      ∀ (key : GoType) (m : List (Bytes × GoVal)), key.kind = .string →
        m.Perm (includedPairs fs) →
        Encode (.map key (m.map fun p => (GoVal.str false p.1, p.2))) e s
          = Encode (.struct fs) e s) := by
  refine ⟨Encode_struct_included fs hval e s, fun hsorted key m hkey hperm => ?_⟩
  rw [Encode_struct_included fs hval e s]
  refine Encode_map_sorted key hkey m (includedPairs fs) hperm.symm hsorted ?_ e s
  intro p hp
  obtain ⟨f, hf, hinc, hpv⟩ := mem_includedPairs (hperm.mem_iff.1 hp)
  rw [hpv]
  exact hval f hf hinc

/-- C9, amended, at a struct with a field `A`, a field excluded by its annotation
and holding a function, and a field `B` renamed to `b`. -/
theorem Encode_struct_pairs_witness :
    (∀ f ∈ [(⟨ascii "A", true, none, ⟨.other, true⟩, false, .int .int 1⟩ : StructField GoVal),
        ⟨ascii "X", true, some (ascii "-"), ⟨.other, true⟩, true, .other ⟨.func, ascii "func()"⟩⟩,
        ⟨ascii "B", true, some (ascii "b,omitempty"), ⟨.other, true⟩, false, .int .int 2⟩],
      (field f).2.2 = true → Succeeds f.val) ∧
    (Encode (.struct [⟨ascii "A", true, none, ⟨.other, true⟩, false, .int .int 1⟩,
        ⟨ascii "X", true, some (ascii "-"), ⟨.other, true⟩, true, .other ⟨.func, ascii "func()"⟩⟩,
        ⟨ascii "B", true, some (ascii "b,omitempty"), ⟨.other, true⟩, false, .int .int 2⟩]) bufferWriter []
      = Fprintf bufferWriter [] (ascii "16:1:A,1:1#1:b,1:2#\x7d") ∧
    ((includedPairs [⟨ascii "A", true, none, ⟨.other, true⟩, false, .int .int 1⟩,
        ⟨ascii "X", true, some (ascii "-"), ⟨.other, true⟩, true, .other ⟨.func, ascii "func()"⟩⟩,
        ⟨ascii "B", true, some (ascii "b,omitempty"), ⟨.other, true⟩, false, .int .int 2⟩]).Pairwise
          (fun a b => strLess a.1 b.1 = true) →
      ∀ (key : GoType) (m : List (Bytes × GoVal)), key.kind = .string →
        m.Perm (includedPairs [⟨ascii "A", true, none, ⟨.other, true⟩, false, .int .int 1⟩,
          ⟨ascii "X", true, some (ascii "-"), ⟨.other, true⟩, true, .other ⟨.func, ascii "func()"⟩⟩,
          ⟨ascii "B", true, some (ascii "b,omitempty"), ⟨.other, true⟩, false, .int .int 2⟩]) →
        Encode (.map key (m.map fun p => (GoVal.str false p.1, p.2))) bufferWriter []
          = Encode (.struct [⟨ascii "A", true, none, ⟨.other, true⟩, false, .int .int 1⟩,
            ⟨ascii "X", true, some (ascii "-"), ⟨.other, true⟩, true, .other ⟨.func, ascii "func()"⟩⟩,
            ⟨ascii "B", true, some (ascii "b,omitempty"), ⟨.other, true⟩, false, .int .int 2⟩])
              bufferWriter [])) :=
  ⟨by decide, Encode_struct_pairs _ (by decide) bufferWriter []⟩

/-! ## Unsupported kinds -/

/-- On a buffer the wrapping step of a composite keeps the outcome of its loop. -/
theorem wrap_outcome (r : Bytes × Outcome) (tag : Nat) :
    (match r with
      | (buf, .ok) => Fprintf bufferWriter [] (frame buf tag)
      | (_, o) => (([] : Bytes), o)).2 = r.2 := by
  obtain ⟨b, o⟩ := r
  cases o <;> rfl

theorem Encode_slice_outcome (elem : GoType) (xs : List GoVal) (h : elem.kind ≠ .uint8) :
    (Encode (.slice elem xs) bufferWriter []).2
      = (encodeSliceLoop Encode bufferWriter xs []).2 := by
  rw [Encode_slice]
  simp only [encodeSlice, h, if_false]
  exact wrap_outcome _ tagList

theorem Encode_map_outcome (key : GoType) (es : List (GoVal × GoVal)) :
    (Encode (.map key es) bufferWriter []).2
      = (encodeMapLoop Encode bufferWriter
          (sortSlice (fun a b => strLess (valueString key a.1) (valueString key b.1)) es) []).2 := by
  rw [Encode_map]
  simp only [encodeMap]
  exact wrap_outcome _ tagDict

theorem Encode_struct_outcome (fs : List (StructField GoVal)) :
    (Encode (.struct fs) bufferWriter []).2
      = (encodeStructLoop Encode bufferWriter fs []).2 := by
  rw [Encode_struct]
  simp only [encodeStruct]
  exact wrap_outcome _ tagDict

/-- C5, as a counterexample: a struct whose only field holds a function and is
excluded by the annotation `-` contains a value of unsupported kind as a record
field, and yet is encoded without error, as the empty dictionary. -/
theorem Encode_excluded_unsupported_field :
    ContainsUnsupported
      (.struct [⟨ascii "F", true, some (ascii "-"), ⟨.other, false⟩, true, .other ⟨.func, ascii "func()"⟩⟩]) ∧
    Encode (.struct [⟨ascii "F", true, some (ascii "-"), ⟨.other, false⟩, true, .other ⟨.func, ascii "func()"⟩⟩])
      bufferWriter [] = (ascii "0:\x7d", .ok) :=
  ⟨.recordField (List.mem_singleton.2 rfl) (.self _), by decide⟩

/-- A failed call on a buffer leaves the buffer and has the outcome of the call on
an empty buffer. -/
theorem Encode_buffer_fail {val : GoVal} (h : ¬ Succeeds val) (buf : Bytes) :
    Encode val bufferWriter buf = (buf, (Encode val bufferWriter []).2) :=
  Encode_fail_state val bufferWriter buf h

/-- The loop of `encodeSlice` stops at the first element that does not encode. -/
theorem encodeSliceLoop_first (pre post : List GoVal) (x : GoVal)
    (hpre : ∀ y ∈ pre, Succeeds y) (hx : ¬ Succeeds x) (buf : Bytes) :
    (encodeSliceLoop Encode bufferWriter (pre ++ x :: post) buf).2
      = (Encode x bufferWriter []).2 := by
  induction pre generalizing buf with
  | nil =>
    simp only [List.nil_append, encodeSliceLoop]
    rw [Encode_buffer_fail hx buf]
    unfold Succeeds at hx
    generalize (Encode x bufferWriter []).2 = o at hx
    cases o <;> simp at hx ⊢
  | cons y ys ih =>
    simp only [List.cons_append, encodeSliceLoop]
    rw [Encode_buffer_ok (hpre y (List.mem_cons_self _ _)).buffer_eq buf]
    exact ih (fun z hz => hpre z (List.mem_cons_of_mem _ hz)) _

/-- The loop of `encodeMap` goes through the entries that encode. -/
theorem encodeMapLoop_append (pre rest : List (GoVal × GoVal))
    (hpre : ∀ q ∈ pre, Succeeds q.1 ∧ lookupMisses q.1 = false ∧ Succeeds q.2) (buf : Bytes) :
    encodeMapLoop Encode bufferWriter (pre ++ rest) buf
      = encodeMapLoop Encode bufferWriter rest
          (buf ++ (pre.map fun p => written p.1 ++ written p.2).flatten) := by
  induction pre generalizing buf with
  | nil => simp
  | cons q qs ih =>
    obtain ⟨k, v⟩ := q
    have hq := hpre (k, v) (List.mem_cons_self _ _)
    simp only [List.cons_append, encodeMapLoop]
    rw [Encode_buffer_ok hq.1.buffer_eq buf]
    simp only []
    rw [if_neg (by simp [hq.2.1]), Encode_buffer_ok hq.2.2.buffer_eq]
    simp only []
    rw [show qs.append rest = qs ++ rest from rfl,
      ih (fun z hz => hpre z (List.mem_cons_of_mem _ hz))]
    simp

/-- The loop of `encodeMap` stops at the first key that does not encode. -/
theorem encodeMapLoop_first_key (pre post : List (GoVal × GoVal)) (p : GoVal × GoVal)
    (hpre : ∀ q ∈ pre, Succeeds q.1 ∧ lookupMisses q.1 = false ∧ Succeeds q.2)
    (hp : ¬ Succeeds p.1) (buf : Bytes) :
    (encodeMapLoop Encode bufferWriter (pre ++ p :: post) buf).2
      = (Encode p.1 bufferWriter []).2 := by
  rw [encodeMapLoop_append pre _ hpre]
  obtain ⟨k, v⟩ := p
  simp only [encodeMapLoop]
  rw [Encode_buffer_fail hp]
  unfold Succeeds at hp
  generalize (Encode k bufferWriter []).2 = o at hp
  cases o <;> simp at hp ⊢

/-- The loop of `encodeMap` stops at the first value that does not encode. -/
theorem encodeMapLoop_first_value (pre post : List (GoVal × GoVal)) (p : GoVal × GoVal)
    (hpre : ∀ q ∈ pre, Succeeds q.1 ∧ lookupMisses q.1 = false ∧ Succeeds q.2)
    (hk : Succeeds p.1) (hm : lookupMisses p.1 = false) (hp : ¬ Succeeds p.2) (buf : Bytes) :
    (encodeMapLoop Encode bufferWriter (pre ++ p :: post) buf).2
      = (Encode p.2 bufferWriter []).2 := by
  rw [encodeMapLoop_append pre _ hpre]
  obtain ⟨k, v⟩ := p
  simp only [encodeMapLoop]
  rw [Encode_buffer_ok hk.buffer_eq]
  simp only []
  rw [if_neg (by simpa using hm), Encode_buffer_fail hp]
  unfold Succeeds at hp
  generalize (Encode v bufferWriter []).2 = o at hp
  cases o <;> simp at hp ⊢

/-- The loop of `encodeStruct` stops at the first included field whose value does
not encode. -/
theorem encodeStructLoop_first (pre post : List (StructField GoVal)) (f : StructField GoVal)
    (hpre : ∀ g ∈ pre, (field g).2.2 = true → Succeeds g.val) (hinc : (field f).2.2 = true)
    (hf : ¬ Succeeds f.val) (buf : Bytes) :
    (encodeStructLoop Encode bufferWriter (pre ++ f :: post) buf).2
      = (Encode f.val bufferWriter []).2 := by
  induction pre generalizing buf with
  | nil =>
    simp only [List.nil_append]
    rw [encodeStructLoop_cons, if_pos hinc, Encode_buffer_ok (Succeeds_str _).buffer_eq buf]
    simp only []
    rw [Encode_buffer_fail hf]
    unfold Succeeds at hf
    generalize (Encode f.val bufferWriter []).2 = o at hf
    cases o <;> simp at hf ⊢
  | cons g gs ih =>
    have ih' := ih (fun z hz => hpre z (List.mem_cons_of_mem _ hz))
    simp only [List.cons_append]
    rw [encodeStructLoop_cons]
    by_cases hg : (field g).2.2 = true
    · rw [if_pos hg, Encode_buffer_ok (Succeeds_str _).buffer_eq buf]
      simp only []
      rw [Encode_buffer_ok (hpre g (List.mem_cons_self _ _) hg).buffer_eq]
      exact ih' _
    · rw [if_neg hg]
      exact ih' buf

/-- The first value that does not encode decides the outcome of the call. -/
theorem FirstUnsupported.outcome {t : GoType} {val : GoVal} (h : FirstUnsupported t val) :
    (Encode val bufferWriter []).2 = .error (.unsupportedType t) := by
  induction h with
  | self => rfl
  | referent _ ih => rw [Encode_ptr]; exact ih
  | @element elem pre post x hk hpre _ ih =>
    have hx : ¬ Succeeds x := by
      intro hs
      unfold Succeeds at hs
      rw [ih] at hs
      cases hs
    rw [Encode_slice_outcome elem _ hk, encodeSliceLoop_first pre post x hpre hx, ih]
  | @mapKey key es pre post p hsort hpre _ ih =>
    have hx : ¬ Succeeds p.1 := by
      intro hs
      unfold Succeeds at hs
      rw [ih] at hs
      cases hs
    rw [Encode_map_outcome, hsort, encodeMapLoop_first_key pre post p hpre hx, ih]
  | @mapValue key es pre post p hsort hpre hk hm _ ih =>
    have hx : ¬ Succeeds p.2 := by
      intro hs
      unfold Succeeds at hs
      rw [ih] at hs
      cases hs
    rw [Encode_map_outcome, hsort, encodeMapLoop_first_value pre post p hpre hk hm hx, ih]
  | @includedField pre post f hpre hinc _ ih =>
    have hx : ¬ Succeeds f.val := by
      intro hs
      unfold Succeeds at hs
      rw [ih] at hs
      cases hs
    rw [Encode_struct_outcome, encodeStructLoop_first pre post f hpre hinc hx, ih]

/-- Either every element of a list has a property, or there is a first one that
has not. -/
theorem exists_first_failure {α : Type} (P : α → Prop) (xs : List α) :
    (∀ x ∈ xs, P x) ∨
    ∃ pre x post, xs = pre ++ x :: post ∧ (∀ y ∈ pre, P y) ∧ ¬ P x := by
  induction xs with
  | nil => exact Or.inl (fun x hx => by cases hx)
  | cons a l ih =>
    by_cases ha : P a
    · rcases ih with h | ⟨pre, x, post, rfl, hpre, hx⟩
      · left
        intro x hx
        rcases List.mem_cons.1 hx with rfl | hx
        · exact ha
        · exact h x hx
      · right
        refine ⟨a :: pre, x, post, rfl, ?_, hx⟩
        intro y hy
        rcases List.mem_cons.1 hy with rfl | hy
        · exact ha
        · exact hpre y hy
    · exact Or.inr ⟨[], a, l, rfl, fun y hy => (by cases hy), ha⟩

/-- The loop of `encodeMap` panics at the first key that the lookup misses. -/
theorem encodeMapLoop_first_miss (pre post : List (GoVal × GoVal)) (p : GoVal × GoVal)
    (hpre : ∀ q ∈ pre, Succeeds q.1 ∧ lookupMisses q.1 = false ∧ Succeeds q.2)
    (hk : Succeeds p.1) (hm : lookupMisses p.1 = true) (buf : Bytes) :
    (encodeMapLoop Encode bufferWriter (pre ++ p :: post) buf).2 = .panic := by
  rw [encodeMapLoop_append pre _ hpre]
  obtain ⟨k, v⟩ := p
  simp only [encodeMapLoop]
  rw [Encode_buffer_ok hk.buffer_eq]
  simp only []
  rw [if_pos hm]

/-- On a buffer a call succeeds, or panics, or the first value that it does not
encode is of unsupported kind (and the call returns the error for its type, by
`FirstUnsupported.outcome`). -/
theorem Encode_buffer_class (val : GoVal) :
    Succeeds val ∨ (Encode val bufferWriter []).2 = .panic ∨
      ∃ t, FirstUnsupported t val := by
  induction val using GoVal.induction_children with
  | nil => exact Or.inl rfl
  | str named b => cases named; exact Or.inl rfl; exact Or.inr (Or.inl rfl)
  | int k n => exact Or.inl rfl
  | float k x => exact Or.inl rfl
  | bool named b => cases named; exact Or.inl rfl; exact Or.inr (Or.inl rfl)
  | nilPtr => exact Or.inr (Or.inl rfl)
  | other t => exact Or.inr (Or.inr ⟨t, .self⟩)
  | formattedInt k n out => exact Or.inl rfl
  | formattedFloat k x out => exact Or.inl rfl
  | formattedBytes b out => exact Or.inl rfl
  | ptr x ih =>
    unfold Succeeds
    rw [Encode_ptr]
    rcases ih with h | h | ⟨t, ht⟩
    · exact Or.inl h
    · exact Or.inr (Or.inl h)
    · exact Or.inr (Or.inr ⟨t, .referent ht⟩)
  | map key es ih =>
    unfold Succeeds
    rw [Encode_map_outcome]
    rcases exists_first_failure
        (fun q : GoVal × GoVal => Succeeds q.1 ∧ lookupMisses q.1 = false ∧ Succeeds q.2)
        (sortSlice (fun a b => strLess (valueString key a.1) (valueString key b.1)) es)
      with h | ⟨pre, p, post, hsort, hpre, hp⟩
    · left
      rw [encodeMapLoop_ok _ h]
    · have hmem : p ∈ es := by
        rw [← mem_sortSlice (fun a b => strLess (valueString key a.1) (valueString key b.1)),
          hsort]
        simp
      rw [hsort]
      rcases (ih p hmem).1 with hk | hk | ⟨t, ht⟩
      · by_cases hm : lookupMisses p.1 = true
        · exact Or.inr (Or.inl (encodeMapLoop_first_miss pre post p hpre hk hm []))
        · have hm' : lookupMisses p.1 = false := by simpa using hm
          rcases (ih p hmem).2 with hv | hv | ⟨t, ht⟩
          · exact absurd ⟨hk, hm', hv⟩ hp
          · right; left
            have hns : ¬ Succeeds p.2 := by
              intro hs
              unfold Succeeds at hs
              rw [hv] at hs
              cases hs
            rw [encodeMapLoop_first_value pre post p hpre hk hm' hns, hv]
          · exact Or.inr (Or.inr ⟨t, .mapValue hsort hpre hk hm' ht⟩)
      · right; left
        have hns : ¬ Succeeds p.1 := by
          intro hs
          unfold Succeeds at hs
          rw [hk] at hs
          cases hs
        rw [encodeMapLoop_first_key pre post p hpre hns, hk]
      · exact Or.inr (Or.inr ⟨t, .mapKey hsort hpre ht⟩)
  | struct fs ih =>
    unfold Succeeds
    rw [Encode_struct_outcome]
    rcases exists_first_failure
        (fun g : StructField GoVal => (field g).2.2 = true → Succeeds g.val) fs
      with h | ⟨pre, f, post, rfl, hpre, hf⟩
    · left
      rw [encodeStructLoop_ok _ h]
    · have hinc : (field f).2.2 = true := by
        by_contra hc
        exact hf (fun h => absurd h hc)
      have hns : ¬ Succeeds f.val := fun hs => hf (fun _ => hs)
      rcases ih f (by simp) with h1 | h1 | ⟨t, ht⟩
      · exact absurd h1 hns
      · right; left
        rw [encodeStructLoop_first pre post f hpre hinc hns, h1]
      · exact Or.inr (Or.inr ⟨t, .includedField hpre hinc ht⟩)
  | slice elem xs ih =>
    by_cases hk : elem.kind = .uint8
    · left
      unfold Succeeds
      rw [Encode_slice]
      simp only [encodeSlice, hk, if_true]
      rfl
    · unfold Succeeds
      rw [Encode_slice_outcome elem xs hk]
      rcases exists_first_failure Succeeds xs with h | ⟨pre, x, post, rfl, hpre, hx⟩
      · left
        rw [encodeSliceLoop_ok _ h]
      · rcases ih x (by simp) with h1 | h1 | ⟨t, ht⟩
        · exact absurd h1 hx
        · right; left
          rw [encodeSliceLoop_first pre post x hpre hx, h1]
        · exact Or.inr (Or.inr ⟨t, .element hk hpre ht⟩)

/-- C5, amended: when the first value that `Encode` does not encode in `val`, in
the order in which it visits them (`val` itself, the referent of a pointer that is
not nil, the elements of a list, the keys and values of a map, the values of the
included fields of a struct, at any depth), is of a kind with no defined mapping,
the call returns the unsupported-type error carrying the type of that value and
writes nothing to the sink. -/
theorem Encode_unsupported (val : GoVal) (t : GoType) (h : FirstUnsupported t val)
    {σ : Type} (e : Writer σ) (s : σ) :
    Encode val e s = (s, .error (.unsupportedType t)) := by
  have ho := h.outcome
  have hns : ¬ Succeeds val := by
    intro hs
    unfold Succeeds at hs
    rw [ho] at hs
    cases hs
  rw [Encode_fail_state val e s hns, ho]

/-- C5, amended, at a list that holds an integer, a pointer to a struct with a
channel in an included field, and a nil pointer after it: the call returns the
error for the channel type, and the buffer holds `x` before and after the call. -/
theorem Encode_unsupported_witness :
    FirstUnsupported ⟨.chan, ascii "chan int"⟩
      (.slice ⟨.interface, ascii "interface {}"⟩
        [.int .int 1,
          .ptr (some (.struct
            [⟨ascii "C", true, none, ⟨.other, false⟩, true, .other ⟨.chan, ascii "chan int"⟩⟩])),
          .ptr none]) ∧
    Encode (.slice ⟨.interface, ascii "interface {}"⟩
        [.int .int 1,
          .ptr (some (.struct
            [⟨ascii "C", true, none, ⟨.other, false⟩, true, .other ⟨.chan, ascii "chan int"⟩⟩])),
          .ptr none])
      bufferWriter (ascii "x")
      = (ascii "x", .error (.unsupportedType ⟨.chan, ascii "chan int"⟩)) :=
  have hv : FirstUnsupported ⟨.chan, ascii "chan int"⟩
      (.slice ⟨.interface, ascii "interface {}"⟩
        [.int .int 1,
          .ptr (some (.struct
            [⟨ascii "C", true, none, ⟨.other, false⟩, true, .other ⟨.chan, ascii "chan int"⟩⟩])),
          .ptr none]) :=
    @FirstUnsupported.element _ ⟨.interface, ascii "interface {}"⟩ [.int .int 1] [.ptr none] _
      (by decide) (by decide)
      (.referent (@FirstUnsupported.includedField _ [] [] _
        (by intro g hg; cases hg) (by decide) .self))
  ⟨hv, Encode_unsupported _ _ hv bufferWriter (ascii "x")⟩

/-! ## The abstract model -/

/-- Structural induction on abstract values. -/
theorem Value.induction_items {P : Value → Prop} (v : Value)
    (string : ∀ s, P (.string s))
    (integer : ∀ n, P (.integer n))
    (boolean : ∀ b, P (.boolean b))
    (null : P .null)
    (list : ∀ xs, (∀ x ∈ xs, P x) → P (.list xs))
    (dict : ∀ es, (∀ p ∈ es, P p.2) → P (.dict es)) : P v := by
  have key : ∀ n (v : Value), sizeOf v < n → P v := by
    intro n
    induction n with
    | zero => intro v h; omega
    | succ n ih =>
      intro v h
      cases v with
      | string s => exact string s
      | integer n => exact integer n
      | boolean b => exact boolean b
      | null => exact null
      | list xs =>
        refine list xs fun x hx => ih x ?_
        have h1 := List.sizeOf_lt_of_mem hx
        simp only [Value.list.sizeOf_spec] at h
        omega
      | dict es =>
        refine dict es fun p hp => ih p.2 ?_
        have h1 := List.sizeOf_lt_of_mem hp
        have h2 : sizeOf p.2 < sizeOf p := by
          obtain ⟨k, w⟩ := p
          simp only [Prod.mk.sizeOf_spec]
          omega
        simp only [Value.dict.sizeOf_spec] at h
        omega
  exact key (sizeOf v + 1) v (Nat.lt_succ_self _)

theorem toGoList_eq (d : Delivery) (xs : List Value) : toGoList d xs = xs.map (toGo d) := by
  induction xs with
  | nil => rfl
  | cons x xs ih => simp [toGoList, ih]

theorem toGoPairs_eq (d : Delivery) (es : List (Bytes × Value)) :
    toGoPairs d es = es.map fun p => (p.1, toGo d p.2) := by
  induction es with
  | nil => rfl
  | cons p es ih =>
    obtain ⟨k, v⟩ := p
    simp [toGoPairs, ih]

theorem payloadList_eq (xs : List Value) : payloadList xs = (xs.map wire).flatten := by
  induction xs with
  | nil => rfl
  | cons x xs ih => simp [payloadList, ih, wire]

theorem payloadPairs_eq (es : List (Bytes × Value)) :
    payloadPairs es = (es.map fun p => frame p.1 44 ++ wire p.2).flatten := by
  induction es with
  | nil => rfl
  | cons p es ih =>
    obtain ⟨k, v⟩ := p
    simp [payloadPairs, ih, wire]

theorem canonicalList_iff (xs : List Value) :
    canonicalList xs = true ↔ ∀ x ∈ xs, canonical x = true := by
  induction xs with
  | nil => simp [canonicalList]
  | cons x xs ih => simp [canonicalList, ih]

theorem canonicalPairs_iff (es : List (Bytes × Value)) :
    canonicalPairs es = true ↔ ∀ p ∈ es, canonical p.2 = true := by
  induction es with
  | nil => simp [canonicalPairs]
  | cons p es ih =>
    obtain ⟨k, v⟩ := p
    simp [canonicalPairs, ih]

/-- The encoder writes the wire format: for every canonical abstract value, held
as a Go value in any valid way, `Encode` succeeds and writes the frame that
section 6 prescribes. -/
theorem Encode_toGo (d : Delivery) (hd : d.Valid) (v : Value) (hv : canonical v = true) :
    Encode (toGo d v) bufferWriter [] = (wire v, .ok) := by
  induction v using Value.induction_items with
  | string s => rfl
  | integer n => rfl
  | boolean b => rfl
  | null => rfl
  | list xs ih =>
    simp only [canonical, canonicalList_iff] at hv
    have hs : ∀ g ∈ toGoList d xs, Succeeds g := by
      intro g hg
      rw [toGoList_eq] at hg
      obtain ⟨x, hx, rfl⟩ := List.mem_map.1 hg
      unfold Succeeds
      rw [ih x hx (hv x hx)]
    simp only [toGo]
    rw [Encode_slice]
    simp only [encodeSlice, hd.1, if_false]
    rw [encodeSliceLoop_ok _ hs []]
    have hw : ((toGoList d xs).map written).flatten = payloadList xs := by
      rw [payloadList_eq, toGoList_eq, List.map_map]
      congr 1
      apply List.map_congr_left
      intro x hx
      simp only [Function.comp, written]
      rw [ih x hx (hv x hx)]
    rw [hw]
    rfl
  | dict es ih =>
    simp only [canonical, Bool.and_eq_true, decide_eq_true_eq, canonicalPairs_iff] at hv
    have hs : ∀ p ∈ toGoPairs d es, Succeeds p.2 := by
      intro p hp
      rw [toGoPairs_eq] at hp
      obtain ⟨q, hq, rfl⟩ := List.mem_map.1 hp
      unfold Succeeds
      rw [ih q hq (hv.2 q hq)]
    have hsorted : (toGoPairs d es).Pairwise (fun a b => strLess a.1 b.1 = true) := by
      rw [toGoPairs_eq, List.pairwise_map]
      have := hv.1
      rw [List.pairwise_map] at this
      exact this
    simp only [toGo]
    rw [Encode_map_sorted d.keyType hd.2.1 (d.order (toGoPairs d es)) (toGoPairs d es)
      (hd.2.2 _).symm hsorted (fun p hp => hs p ((hd.2.2 _).mem_iff.1 hp)) bufferWriter []]
    have hw : ((toGoPairs d es).map fun p => frame p.1 tagString ++ written p.2).flatten
        = payloadPairs es := by
      rw [payloadPairs_eq, toGoPairs_eq, List.map_map]
      congr 1
      apply List.map_congr_left
      intro q hq
      simp only [Function.comp, written]
      rw [ih q hq (hv.2 q hq)]
      rfl
    rw [hw]
    rfl

/-! ## The decoder inverts the wire format -/

theorem takeWhile_digits (l rest : Bytes) (h : ∀ b ∈ l, 48 ≤ b ∧ b ≤ 57) :
    (l ++ 58 :: rest).takeWhile (fun b => b != 58) = l ∧
    (l ++ 58 :: rest).dropWhile (fun b => b != 58) = 58 :: rest := by
  induction l with
  | nil => simp
  | cons a l ih =>
    have ha := h a (List.mem_cons_self _ _)
    have hne : (a != 58) = true := by
      simp only [bne_iff_ne, ne_eq]
      omega
    have ih' := ih (fun b hb => h b (List.mem_cons_of_mem _ hb))
    simp only [List.cons_append, List.takeWhile_cons, List.dropWhile_cons, hne, if_true]
    exact ⟨by rw [ih'.1], ih'.2⟩

/-- The frame at the head of the input is found again, whatever follows it. -/
theorem splitFrame_frame (p : Bytes) (t : Nat) (rest : Bytes) :
    splitFrame (frame p t ++ rest) = some (p, t, rest) := by
  have h := takeWhile_digits (decimal p.length) (p ++ t :: rest) (decimal_digits _)
  have he : frame p t ++ rest = decimal p.length ++ 58 :: (p ++ t :: rest) := by
    simp [frame]
  unfold splitFrame
  rw [he, h.1, h.2, parseNat_decimal]
  simp

theorem frame_length (p : Bytes) (t : Nat) : p.length + 3 ≤ (frame p t).length := by
  have h := decimal_ne_nil p.length
  have h1 : 0 < (decimal p.length).length := List.length_pos.2 h
  simp only [frame, List.length_append, List.length_singleton]
  omega

theorem frame_ne_nil (p : Bytes) (t : Nat) : frame p t ≠ [] := by
  intro h
  have := frame_length p t
  rw [h] at this
  simp at this

theorem wire_length_le_payloadList {x : Value} {xs : List Value} (h : x ∈ xs) :
    (wire x).length ≤ (payloadList xs).length := by
  induction xs with
  | nil => cases h
  | cons y ys ih =>
    simp only [payloadList, List.length_append]
    rcases List.mem_cons.1 h with rfl | h
    · exact Nat.le_add_right _ _
    · exact (ih h).trans (Nat.le_add_left _ _)

theorem wire_length_le_payloadPairs {p : Bytes × Value} {es : List (Bytes × Value)} (h : p ∈ es) :
    (wire p.2).length ≤ (payloadPairs es).length := by
  induction es with
  | nil => cases h
  | cons q qs ih =>
    obtain ⟨k, w⟩ := q
    simp only [payloadPairs, List.length_append]
    rcases List.mem_cons.1 h with rfl | h
    · show (frame (payload w) (tagOf w)).length ≤ _
      omega
    · exact (ih h).trans (Nat.le_add_left _ _)

/-- The items of a list payload are read back one by one. -/
theorem decodeItems_payloadList (dec : Bytes → Nat → Option Value) (xs : List Value)
    (h : ∀ x ∈ xs, dec (payload x) (tagOf x) = some x) (n : Nat)
    (hn : (payloadList xs).length ≤ n) : decodeItems dec n (payloadList xs) = some xs := by
  induction xs generalizing n with
  | nil => cases n <;> simp [decodeItems, payloadList]
  | cons x xs ih =>
    have hne : payloadList (x :: xs) ≠ [] := by
      simp only [payloadList, ne_eq, List.append_eq_nil, not_and]
      intro h0
      exact absurd h0 (frame_ne_nil _ _)
    have hlen : (payloadList (x :: xs)).length
        = (frame (payload x) (tagOf x)).length + (payloadList xs).length := by
      simp [payloadList]
    have hfl := frame_length (payload x) (tagOf x)
    cases n with
    | zero => omega
    | succ n =>
      simp only [decodeItems, hne, if_false]
      simp only [payloadList, splitFrame_frame]
      rw [h x (List.mem_cons_self _ _),
        ih (fun y hy => h y (List.mem_cons_of_mem _ hy)) n (by omega)]

/-- The pairs of a dictionary payload are read back one by one. -/
theorem decodePairs_payloadPairs (dec : Bytes → Nat → Option Value) (es : List (Bytes × Value))
    (h : ∀ p ∈ es, dec (payload p.2) (tagOf p.2) = some p.2) (n : Nat)
    (hn : (payloadPairs es).length ≤ n) : decodePairs dec n (payloadPairs es) = some es := by
  induction es generalizing n with
  | nil => cases n <;> simp [decodePairs, payloadPairs]
  | cons q qs ih =>
    obtain ⟨k, w⟩ := q
    have hne : payloadPairs ((k, w) :: qs) ≠ [] := by
      simp only [payloadPairs, ne_eq, List.append_eq_nil, not_and]
      intro h0
      exact absurd h0.1 (frame_ne_nil _ _)
    have hlen : (payloadPairs ((k, w) :: qs)).length
        = (frame k 44).length + (frame (payload w) (tagOf w)).length
          + (payloadPairs qs).length := by
      simp [payloadPairs, Nat.add_assoc]
    have hfl := frame_length k 44
    cases n with
    | zero => omega
    | succ n =>
      simp only [decodePairs, hne, if_false]
      simp only [payloadPairs, List.append_assoc, splitFrame_frame, if_true]
      rw [h (k, w) (List.mem_cons_self _ _),
        ih (fun y hy => h y (List.mem_cons_of_mem _ hy)) n (by omega)]

theorem parseInt_fmtInt (n : Int) : parseInt (fmtInt n) = n := by
  unfold fmtInt
  split
  · show -(parseNat (decimal n.natAbs) : Int) = n
    rw [parseNat_decimal]
    omega
  · rw [parseInt_decimal]
    omega

/-- The payload and the tag of a value give the value back. -/
theorem decodeFuel_wire (v : Value) :
    ∀ fuel, (wire v).length ≤ fuel → decodeFuel fuel (payload v) (tagOf v) = some v := by
  induction v using Value.induction_items with
  | string s =>
    intro fuel hf
    have := frame_length (payload (.string s)) (tagOf (.string s))
    cases fuel with
    | zero => unfold wire at hf; omega
    | succ fuel => simp [decodeFuel, tagOf, payload]
  | integer n =>
    intro fuel hf
    have := frame_length (payload (.integer n)) (tagOf (.integer n))
    cases fuel with
    | zero => unfold wire at hf; omega
    | succ fuel => simp [decodeFuel, tagOf, payload, parseInt_fmtInt]
  | boolean b =>
    intro fuel hf
    have := frame_length (payload (.boolean b)) (tagOf (.boolean b))
    cases fuel with
    | zero => unfold wire at hf; omega
    | succ fuel =>
      have h1 : FormatBool true = ascii "true" := rfl
      have h2 : FormatBool false ≠ ascii "true" := by decide
      have h3 : FormatBool false = ascii "false" := rfl
      cases b
      · have h4 : ¬ ascii "false" = ascii "true" := by decide
        simp [decodeFuel, tagOf, payload, h3, h4]
      · simp [decodeFuel, tagOf, payload, h1]
  | null =>
    intro fuel hf
    have := frame_length (payload .null) (tagOf .null)
    cases fuel with
    | zero => unfold wire at hf; omega
    | succ fuel => simp [decodeFuel, tagOf, payload]
  | list xs ih =>
    intro fuel hf
    have hfl := frame_length (payload (.list xs)) (tagOf (.list xs))
    unfold wire at hf
    cases fuel with
    | zero => omega
    | succ fuel =>
      simp only [payload] at hfl hf
      simp only [decodeFuel, tagOf, payload]
      rw [decodeItems_payloadList (decodeFuel fuel) xs ?_ _ (le_refl _)]
      · simp
      · intro x hx
        have := wire_length_le_payloadList hx
        exact ih x hx fuel (by omega)
  | dict es ih =>
    intro fuel hf
    have hfl := frame_length (payload (.dict es)) (tagOf (.dict es))
    unfold wire at hf
    cases fuel with
    | zero => omega
    | succ fuel =>
      simp only [payload] at hfl hf
      simp only [decodeFuel, tagOf, payload]
      rw [decodePairs_payloadPairs (decodeFuel fuel) es ?_ _ (le_refl _)]
      · simp
      · intro p hp
        have := wire_length_le_payloadPairs hp
        exact ih p hp fuel (by omega)

/-- The decoder reads every frame of the wire format back. -/
theorem decode_wire (v : Value) : decode (wire v) = some v := by
  have h := splitFrame_frame (payload v) (tagOf v) []
  rw [List.append_nil] at h
  unfold decode
  rw [show splitFrame (wire v) = some (payload v, tagOf v, []) from h]
  exact decodeFuel_wire v _ (le_refl _)

/-- C8: the function `decode` reads back what `Encode` writes. For every value of
the abstract model built from strings, integers, booleans, null, lists and
dictionaries with strictly ascending (hence unique) text keys, held as a Go value
with any integer kind, any list type that is not a byte string, and any order in
which the maps deliver their entries, `Encode` succeeds and `decode` returns the
value from the bytes written. Consequently two such values with the same bytes
are equal. -/
theorem decode_Encode (d : Delivery) (hd : d.Valid) (v : Value) (hv : canonical v = true) :
    Encode (toGo d v) bufferWriter [] = (written (toGo d v), .ok) ∧
    decode (written (toGo d v)) = some v ∧
    ∀ (d' : Delivery) (w : Value), d'.Valid → canonical w = true →
      written (toGo d' w) = written (toGo d v) → w = v := by
  have h := Encode_toGo d hd v hv
  have hw : written (toGo d v) = wire v := by
    unfold written
    rw [h]
  refine ⟨by rw [hw]; exact h, by rw [hw]; exact decode_wire v, ?_⟩
  intro d' w hd' hcw heq
  have hw' : written (toGo d' w) = wire w := by
    unfold written
    rw [Encode_toGo d' hd' w hcw]
  rw [hw, hw'] at heq
  have h1 := decode_wire w
  rw [heq, decode_wire v] at h1
  exact (Option.some.inj h1).symm

/-- C8 at the example value, with maps that deliver their entries in reverse. -/
theorem decode_Encode_witness :
    exampleDelivery.Valid ∧ canonical exampleValue = true ∧
    Encode (toGo exampleDelivery exampleValue) bufferWriter []
      = (written (toGo exampleDelivery exampleValue), .ok) ∧
    decode (written (toGo exampleDelivery exampleValue)) = some exampleValue ∧
    ∀ (d' : Delivery) (w : Value), d'.Valid → canonical w = true →
      written (toGo d' w) = written (toGo exampleDelivery exampleValue) → w = exampleValue :=
  ⟨⟨by decide, rfl, fun l => List.reverse_perm l⟩, by decide,
    decode_Encode exampleDelivery ⟨by decide, rfl, fun l => List.reverse_perm l⟩
      exampleValue (by decide)⟩

/-! ## Totality -/

/-- The method `Encode` always ends: the recursion budget of the model is never
used up, on any value and any sink. -/
theorem Encode_ne_exhausted (val : GoVal) {σ : Type} (e : Writer σ) (s : σ) :
    (Encode val e s).2 ≠ .exhausted := by
  rw [Encode_sink]
  rcases Encode_buffer_class val with h | h | ⟨t, ht⟩
  · rw [h.buffer_eq]
    exact Fprintf_ne_exhausted e s _
  · generalize Encode val bufferWriter [] = r at h
    obtain ⟨out, o⟩ := r
    simp only at h
    subst h
    simp
  · have h := ht.outcome
    generalize Encode val bufferWriter [] = r at h
    obtain ⟨out, o⟩ := r
    simp only at h
    subst h
    simp

/-! ## References, byte strings and literal scalars -/

/-- C11: a struct whose only field is an `int` annotated `n,omitempty` and holding 0
is encoded as the empty dictionary when the call converts the zero composite
literal itself, which Go holds in `runtime.zeroVal`, so that the header of the
field equals that of `reflect.Zero`; a pointer to the same struct is encoded with
the field, because `Elem().Interface()` hands on a copy in storage of its own. -/
theorem Encode_pointer_not_transparent :
    Encode (.struct [⟨ascii "N", true, some (ascii "n,omitempty"), ⟨.zeroVal, true⟩, false,
        .int .int 0⟩]) bufferWriter [] = (ascii "0:\x7d", .ok) ∧
    Encode (.ptr (some (.struct [⟨ascii "N", true, some (ascii "n,omitempty"),
        ⟨.other, true⟩, false, .int .int 0⟩]))) bufferWriter []
      = (ascii "8:1:n,1:0#\x7d", .ok) ∧
    Encode (.ptr (some (.struct [⟨ascii "N", true, some (ascii "n,omitempty"),
        ⟨.other, true⟩, false, .int .int 0⟩]))) bufferWriter []
      ≠ Encode (.struct [⟨ascii "N", true, some (ascii "n,omitempty"), ⟨.zeroVal, true⟩, false,
        .int .int 0⟩]) bufferWriter [] := by
  decide

theorem sliceBytes_map (b : Bytes) :
    sliceBytes (b.map fun x => GoVal.int .uint8 (Int.ofNat x)) = b := by
  induction b with
  | nil => rfl
  | cons x xs ih =>
    simp only [sliceBytes, List.map_cons, List.map_map] at ih ⊢
    rw [ih]
    rfl

/-- C15: the four bytes 127, 0, 0, 1 of a defined byte-slice type whose `String`
method gives `127.0.0.1` (as `net.IP` does) are encoded as `9:127.0.0.1,`, while
the string with these bytes is encoded as `4:`, the four bytes and a comma: the
verb `%s` is applied to the dynamic value, so the method gives the payload. -/
theorem Encode_formatted_bytes :
    Encode (.formattedBytes [127, 0, 0, 1] (ascii "127.0.0.1")) bufferWriter []
      = (ascii "9:127.0.0.1,", .ok) ∧
    Encode (.str false [127, 0, 0, 1]) bufferWriter [] = ([52, 58, 127, 0, 0, 1, 44], .ok) ∧
    Encode (.formattedBytes [127, 0, 0, 1] (ascii "127.0.0.1")) bufferWriter []
      ≠ Encode (.str false [127, 0, 0, 1]) bufferWriter [] := by
  decide

/-- The byte branch for a type without a `Format`, `Error` or `String` method: a
byte slice or byte array is encoded as the string with the same bytes: the decimal
byte count, a colon, the bytes, and a comma; never as a list. The empty byte slice
gives `0:,`. -/
theorem Encode_bytes :
    (∀ (elemName b : Bytes) {σ : Type} (e : Writer σ) (s : σ),
      Encode (byteSlice elemName b) e s
        = Fprintf e s (decimal b.length ++ [58] ++ b ++ [44]) ∧
      Encode (byteSlice elemName b) e s = Encode (.str false b) e s) ∧
    Encode (byteSlice (ascii "uint8") []) bufferWriter [] = (ascii "0:,", .ok) ∧
    Encode (byteSlice (ascii "uint8") [104, 105, 255]) bufferWriter []
      = ([51, 58, 104, 105, 255, 44], .ok) := by
  have key : ∀ (elemName b : Bytes) {σ : Type} (e : Writer σ) (s : σ),
      Encode (byteSlice elemName b) e s = Fprintf e s (frame b tagString) := by
    intro elemName b σ e s
    unfold byteSlice
    rw [Encode_slice]
    simp only [encodeSlice, if_true]
    rw [sliceBytes_map]
  exact ⟨fun elemName b σ e s => ⟨key elemName b e s, key elemName b e s⟩, by decide, by decide⟩

/-- C17: `true` is encoded as `4:true!`, `false` as `5:false!` and the nil interface
as `0:~`, each in one write; the call returns nil when the sink accepts the write. -/
theorem Encode_literals :
    (∀ {σ : Type} (e : Writer σ) (s : σ),
      Encode (.bool false true) e s = Fprintf e s (ascii "4:true!") ∧
      Encode (.bool false false) e s = Fprintf e s (ascii "5:false!") ∧
      Encode .nil e s = Fprintf e s (ascii "0:~")) ∧
    (∀ {σ : Type} (e : Writer σ) (s : σ) (out : Bytes),
      (Fprintf e s out).2 =
        match (e.write s out).2 with
        | none => .ok
        | some err => .error (.sink err)) ∧
    Encode (.bool false true) bufferWriter [] = (ascii "4:true!", .ok) ∧
    Encode (.bool false false) bufferWriter [] = (ascii "5:false!", .ok) ∧
    Encode .nil bufferWriter [] = (ascii "0:~", .ok) := by
  refine ⟨fun e s => ⟨rfl, rfl, rfl⟩, ?_, by decide, by decide, by decide⟩
  intro σ e s out
  unfold Fprintf
  rcases e.write s out with ⟨s1, _ | err⟩ <;> rfl

/-! ## The sink -/

/-- C16: on a value that encodes, `Encode` performs one `Write` on the sink, with
the complete frame of the value; it returns the error of that write as it is, and
nil if the write succeeds. A sink that records its writes holds this one frame
more after the call, whether it accepts the write or not. -/
theorem Encode_single_write (val : GoVal) (h : Succeeds val) {σ : Type} (e : Writer σ) (s : σ) :
    (Encode val e s =
      match e.write s (written val) with
      | (s1, none) => (s1, .ok)
      | (s1, some err) => (s1, .error (.sink err))) ∧
    (∃ P t, t ∈ tags ∧ written val = frame P t) ∧
    ∀ (fail : Option SinkError) (log : List Bytes),
      Encode val (recordingWriter fail) log =
        (log ++ [written val],
          match fail with
          | none => .ok
          | some err => .error (.sink err)) := by
  refine ⟨h.sink_eq e s, ?_, ?_⟩
  · obtain ⟨P, t, ht, hP⟩ := Encode_buffer_frame val (written val) h.buffer_eq
    exact ⟨P, t, ht, hP⟩
  · intro fail log
    rw [h.sink_eq]
    cases fail <;> rfl

/-- C16 at a map holding a list, on a sink that fails with error 5. -/
theorem Encode_single_write_witness :
    Succeeds (.map ⟨.string, ascii "string"⟩
      [(.str false (ascii "k"), .slice ⟨.int, ascii "int"⟩ [.int .int 1, .int .int 2])]) ∧
    Encode (.map ⟨.string, ascii "string"⟩
      [(.str false (ascii "k"), .slice ⟨.int, ascii "int"⟩ [.int .int 1, .int .int 2])])
      (recordingWriter (some ⟨5⟩)) []
      = ([ascii "15:1:k,8:1:1#1:2#]\x7d"], .error (.sink ⟨5⟩)) :=
  ⟨by decide,
    ((Encode_single_write _ (by decide) (recordingWriter (some ⟨5⟩)) []).2.2
      (some ⟨5⟩) [])⟩

/-! ## Empty composites -/

theorem not_included_of_includedPairs_nil {fs : List (StructField GoVal)}
    (h : includedPairs fs = []) : ∀ f ∈ fs, (field f).2.2 = true → False := by
  induction fs with
  | nil => intro f hf; cases hf
  | cons g gs ih =>
    rw [includedPairs_cons] at h
    by_cases hg : (field g).2.2 = true
    · simp [hg] at h
    · simp only [hg, if_false] at h
      intro f hf hinc
      rcases List.mem_cons.1 hf with rfl | hf
      · exact hg hinc
      · exact ih h f hf hinc

/-- C18: every empty map, and every struct none of whose fields is included, is
encoded as `0:` followed by the closing brace; every empty list whose element type
is not a byte is encoded as `0:]`. -/
theorem Encode_empty_composites (key elem : GoType) (fs : List (StructField GoVal))
    (hfs : includedPairs fs = []) (helem : elem.kind ≠ .uint8) {σ : Type}
    (e : Writer σ) (s : σ) :
    Encode (.map key []) e s = Fprintf e s (ascii "0:\x7d") ∧
    Encode (.struct fs) e s = Fprintf e s (ascii "0:\x7d") ∧
    Encode (.slice elem []) e s = Fprintf e s (ascii "0:]") := by
  refine ⟨rfl, ?_, ?_⟩
  · rw [Encode_struct_included fs
      (fun f hf hinc => (not_included_of_includedPairs_nil hfs f hf hinc).elim) e s, hfs]
    rfl
  · rw [Encode_slice]
    simp only [encodeSlice, helem, if_false]
    rfl

/-- C18 at a struct with an unexported field and a field excluded by its
annotation, and at the empty list of integers. -/
theorem Encode_empty_composites_witness :
    includedPairs [⟨ascii "hidden", false, none, ⟨.other, true⟩, false, .int .int 1⟩,
      ⟨ascii "Skipped", true, some (ascii "-"), ⟨.other, true⟩, false, .int .int 2⟩] = [] ∧
    Encode (.map ⟨.int, ascii "int"⟩ []) bufferWriter [] = (ascii "0:\x7d", .ok) ∧
    Encode (.struct [⟨ascii "hidden", false, none, ⟨.other, true⟩, false, .int .int 1⟩,
      ⟨ascii "Skipped", true, some (ascii "-"), ⟨.other, true⟩, false, .int .int 2⟩]) bufferWriter []
      = (ascii "0:\x7d", .ok) ∧
    Encode (.slice ⟨.int, ascii "int"⟩ []) bufferWriter [] = (ascii "0:]", .ok) :=
  ⟨rfl,
    Encode_empty_composites ⟨.int, ascii "int"⟩ ⟨.int, ascii "int"⟩
      [⟨ascii "hidden", false, none, ⟨.other, true⟩, false, .int .int 1⟩,
        ⟨ascii "Skipped", true, some (ascii "-"), ⟨.other, true⟩, false, .int .int 2⟩]
      rfl (by decide) bufferWriter []⟩

/-! ## Frames delimit themselves -/

/-- Two frames that start the same byte string are the same frame. -/
theorem frame_append_inj {p q : Bytes} {t u : Nat} {r s : Bytes}
    (h : frame p t ++ r = frame q u ++ s) : p = q ∧ t = u ∧ r = s := by
  have h1 := splitFrame_frame p t r
  rw [h, splitFrame_frame q u s] at h1
  simp only [Option.some.injEq, Prod.mk.injEq] at h1
  exact ⟨h1.1.symm, h1.2.1.symm, h1.2.2.symm⟩

theorem Succeeds.written_frame {val : GoVal} (h : Succeeds val) :
    ∃ P t, written val = frame P t := by
  obtain ⟨P, t, _, hP⟩ := Encode_buffer_frame val (written val) h.buffer_eq
  exact ⟨P, t, hP⟩

/-- A concatenation of frames splits into its frames in one way only. -/
theorem written_flatten_inj (xs : List GoVal) (hxs : ∀ x ∈ xs, Succeeds x) :
    ∀ ys : List GoVal, (∀ y ∈ ys, Succeeds y) →
      (xs.map written).flatten = (ys.map written).flatten → xs.map written = ys.map written := by
  induction xs with
  | nil =>
    intro ys hys h
    cases ys with
    | nil => rfl
    | cons y ys =>
      exfalso
      obtain ⟨P, t, hP⟩ := (hys y (List.mem_cons_self _ _)).written_frame
      simp only [List.map_nil, List.flatten_nil, List.map_cons, List.flatten_cons, hP] at h
      have := congrArg List.length h
      have hl := frame_length P t
      simp only [List.length_nil, List.length_append] at this
      omega
  | cons x xs ih =>
    intro ys hys h
    obtain ⟨P, t, hP⟩ := (hxs x (List.mem_cons_self _ _)).written_frame
    cases ys with
    | nil =>
      exfalso
      simp only [List.map_nil, List.flatten_nil, List.map_cons, List.flatten_cons, hP] at h
      have := congrArg List.length h
      have hl := frame_length P t
      simp only [List.length_nil, List.length_append] at this
      omega
    | cons y ys =>
      obtain ⟨Q, u, hQ⟩ := (hys y (List.mem_cons_self _ _)).written_frame
      simp only [List.map_cons, List.flatten_cons] at h ⊢
      rw [hP, hQ] at h ⊢
      obtain ⟨h1, h2, h3⟩ := frame_append_inj h
      rw [h1, h2, ih (fun z hz => hxs z (List.mem_cons_of_mem _ hz)) ys
        (fun z hz => hys z (List.mem_cons_of_mem _ hz)) h3]

/-- C19: the frames that `Encode` writes are self-delimiting. If the frame of `v`
followed by `r` is the same byte string as the frame of `w` followed by `s`, the
two frames are equal and so are `r` and `s`. Consequently two lists of values
whose frames concatenate to the same payload have the same frames, one by one. -/
theorem frames_self_delimiting (v w : GoVal) (hv : Succeeds v) (hw : Succeeds w)
    (r s : Bytes) (h : written v ++ r = written w ++ s) :
    (written v = written w ∧ r = s) ∧
    ∀ xs ys : List GoVal, (∀ x ∈ xs, Succeeds x) → (∀ y ∈ ys, Succeeds y) →
      (xs.map written).flatten = (ys.map written).flatten →
      xs.map written = ys.map written := by
  refine ⟨?_, fun xs ys hxs hys => written_flatten_inj xs hxs ys hys⟩
  obtain ⟨P, t, hP⟩ := hv.written_frame
  obtain ⟨Q, u, hQ⟩ := hw.written_frame
  rw [hP, hQ] at h ⊢
  obtain ⟨h1, h2, h3⟩ := frame_append_inj h
  rw [h1, h2]
  exact ⟨rfl, h3⟩

/-- C19 at an `int` and an `int64` holding 12, each followed by the same bytes. -/
theorem frames_self_delimiting_witness :
    Succeeds (.int .int 12) ∧ Succeeds (.int .int64 12) ∧
    written (.int .int 12) ++ ascii "1:2#" = written (.int .int64 12) ++ ascii "1:2#" ∧
    ((written (.int .int 12) = written (.int .int64 12) ∧ ascii "1:2#" = ascii "1:2#") ∧
    ∀ xs ys : List GoVal, (∀ x ∈ xs, Succeeds x) → (∀ y ∈ ys, Succeeds y) →
      (xs.map written).flatten = (ys.map written).flatten →
      xs.map written = ys.map written) :=
  ⟨by decide, by decide, by decide,
    frames_self_delimiting (.int .int 12) (.int .int64 12) (by decide) (by decide)
      (ascii "1:2#") (ascii "1:2#") (by decide)⟩

/-! ## Defined string and boolean types -/

/-- C20: on a value of a defined type whose underlying type is `string` or `bool`
the type assertion of `Encode` fails: the call panics and writes nothing. The same
happens for a map whose keys are of such a type. -/
theorem Encode_defined_type_panics :
    (∀ (b : Bytes) {σ : Type} (e : Writer σ) (s : σ), Encode (.str true b) e s = (s, .panic)) ∧
    (∀ (b : Bool) {σ : Type} (e : Writer σ) (s : σ), Encode (.bool true b) e s = (s, .panic)) ∧
    Encode (.str true (ascii "a")) bufferWriter [] = ([], .panic) ∧
    Encode (.map ⟨.string, ascii "main.Name"⟩ [(.str true (ascii "a"), .int .int 1)])
      bufferWriter [] = ([], .panic) :=
  ⟨fun _ _ _ _ => rfl, fun _ _ _ _ => rfl, by decide, by decide⟩

/-! ## Field annotations -/

/-- The function `strings.Split` cuts at the first separator and goes on after it. -/
theorem Split_eq (l : Bytes) :
    Split 44 l = firstComponent l ::
      (match l.dropWhile fun b => b != 44 with
        | [] => []
        | _ :: rest => Split 44 rest) := by
  induction l with
  | nil => rfl
  | cons c cs ih =>
    by_cases hc : c = 44
    · subst hc
      simp [Split, firstComponent]
    · have hne : (c != 44) = true := by simpa using hc
      rw [Split, if_neg hc, ih]
      simp only [firstComponent, List.takeWhile_cons, List.dropWhile_cons, hne, if_true]

theorem Split_second (l : Bytes) (x : Bytes) :
    (1 < (Split 44 l).length ∧ (Split 44 l).getD 1 [] = x) ↔ secondComponent l = some x := by
  rw [Split_eq]
  unfold secondComponent
  cases h : l.dropWhile fun b => b != 44 with
  | nil => simp
  | cons a rest =>
    simp only [List.length_cons]
    rw [Split_eq rest]
    simp [firstComponent]

/-- The function `field` in the words of the specification: a field is skipped
when it is excluded, or when it asks for `omitempty` and the comparison with the
zero value holds; otherwise it is returned under its selected key. -/
theorem field_eq (f : StructField GoVal) :
    field f =
      if excluded f = true then ([], .nil, false)
      else if asksOmitEmpty f = true ∧ f.eqZero = true then ([], .nil, false)
      else (selectedKey f, f.val, true) := by
  unfold field excluded asksOmitEmpty selectedKey
  cases hc : f.canInterface
  · simp
  · cases ht : f.tag with
    | none => simp
    | some tag =>
      have hlen : 0 < (Split 44 tag).length := by
        rw [Split_eq]
        simp
      have h0 : (Split 44 tag).getD 0 [] = firstComponent tag := by
        rw [Split_eq]
        rfl
      have hB : (1 < (Split 44 tag).length ∧ (Split 44 tag).getD 1 [] = ascii "omitempty"
          ∧ f.eqZero = true)
          ↔ (secondComponent tag = some (ascii "omitempty") ∧ f.eqZero = true) := by
        rw [← Split_second tag (ascii "omitempty"), and_assoc]
      have hez : f.fv = reflectZero f.pointerShaped ↔ f.eqZero = true := by
        simp [StructField.eqZero]
      simp only [Bool.not_true, Bool.false_eq_true, if_false, Bool.false_or, beq_iff_eq,
        Option.some.injEq, hez, hB, h0]
      by_cases hdash : tag = ascii "-"
      · simp only [hdash, if_true]
      · simp only [hdash, if_false]
        by_cases hB2 : secondComponent tag = some (ascii "omitempty") ∧ f.eqZero = true
        · simp only [hB2, and_self, if_true]
        · rw [if_neg hB2, if_neg hB2]
          by_cases hf : firstComponent tag = []
          · simp [hf]
          · simp [hf, hlen]

theorem includedPairs_append (l1 l2 : List (StructField GoVal)) :
    includedPairs (l1 ++ l2) = includedPairs l1 ++ includedPairs l2 := by
  unfold includedPairs
  exact List.filterMap_append _ _ _

theorem pairsPayload_append (p q : List (Bytes × GoVal)) :
    pairsPayload (p ++ q) = pairsPayload p ++ pairsPayload q := by
  simp [pairsPayload]

theorem field_excluded {g : StructField GoVal} (h : excluded g = true) :
    (field g).2.2 = false := by
  rw [field_eq, if_pos h]

theorem field_selected {f : StructField GoVal} (hex : excluded f = false)
    (hom : asksOmitEmpty f = false) : field f = (selectedKey f, f.val, true) := by
  rw [field_eq, if_neg (by simp [hex]), if_neg (by simp [hom])]

/-- C13, as a counterexample: a struct whose only field is exported, is annotated
`p,omitempty` and holds a nil pointer that compares equal to the zero value. The
field is not excluded, and yet it contributes no pair: the struct is encoded as
the empty dictionary. -/
theorem Encode_omitted_field :
    excluded ⟨ascii "P", true, some (ascii "p,omitempty"), ⟨.null, false⟩, true, .ptr none⟩ = false ∧
    field ⟨ascii "P", true, some (ascii "p,omitempty"), ⟨.null, false⟩, true, .ptr none⟩ = ([], .nil, false) ∧
    Encode (.struct [⟨ascii "P", true, some (ascii "p,omitempty"), ⟨.null, false⟩, true, .ptr none⟩])
      bufferWriter [] = (ascii "0:\x7d", .ok) :=
  ⟨by decide, rfl, by decide⟩

/-- C13, amended: in every struct, a field that is exported, is not annotated with
the exclude directive and does not ask for `omitempty` contributes exactly one
pair, at its place among the pairs of the fields before and after it: the key is
the first comma-separated component of its annotation when there is an annotation
and that component is not empty, and its declared name otherwise; the value frame
is what `Encode` writes for its value. A field that is not exported or is
annotated with the exclude directive contributes no pair. -/
theorem Encode_struct_field_pair (before after : List (StructField GoVal))
    (f : StructField GoVal) (hex : excluded f = false) (hom : asksOmitEmpty f = false)
    (hval : ∀ g ∈ before ++ f :: after, (field g).2.2 = true → Succeeds g.val)
    {σ : Type} (e : Writer σ) (s : σ) :
    field f = (selectedKey f, f.val, true) ∧
    Encode (.struct (before ++ f :: after)) e s =
      Fprintf e s (frame
        (pairsPayload (includedPairs before)
          ++ ((decimal (selectedKey f).length ++ [58] ++ selectedKey f ++ [44]) ++ written f.val)
          ++ pairsPayload (includedPairs after)) 125) ∧
    ∀ g : StructField GoVal, excluded g = true →
      (field g).2.2 = false ∧
      includedPairs (before ++ g :: after) = includedPairs before ++ includedPairs after := by
  have hf := field_selected hex hom
  refine ⟨hf, ?_, ?_⟩
  · rw [Encode_struct_included _ hval e s]
    have hp : includedPairs (before ++ f :: after)
        = includedPairs before ++ (selectedKey f, f.val) :: includedPairs after := by
      rw [includedPairs_append, includedPairs_cons, hf]
      simp
    have hpay : ((includedPairs (before ++ f :: after)).map
        fun p => frame p.1 tagString ++ written p.2).flatten
        = pairsPayload (includedPairs before)
          ++ (frame (selectedKey f) tagString ++ written f.val)
          ++ pairsPayload (includedPairs after) := by
      rw [hp]
      simp [pairsPayload]
    rw [hpay]
    rfl
  · intro g hg
    refine ⟨field_excluded hg, ?_⟩
    rw [includedPairs_append, includedPairs_cons, field_excluded hg]
    simp

/-- C13, amended, at a struct whose second field is renamed to `b` and stands
between a plain field and a field excluded by its annotation. -/
theorem Encode_struct_field_pair_witness :
    excluded ⟨ascii "B", true, some (ascii "b"), ⟨.other, true⟩, false, .int .int 2⟩ = false ∧
    asksOmitEmpty ⟨ascii "B", true, some (ascii "b"), ⟨.other, true⟩, false, .int .int 2⟩ = false ∧
    field ⟨ascii "B", true, some (ascii "b"), ⟨.other, true⟩, false, .int .int 2⟩
      = (ascii "b", .int .int 2, true) ∧
    Encode (.struct ([⟨ascii "A", true, none, ⟨.other, true⟩, false, .int .int 1⟩]
        ++ ⟨ascii "B", true, some (ascii "b"), ⟨.other, true⟩, false, .int .int 2⟩
        :: [⟨ascii "C", true, some (ascii "-"), ⟨.other, true⟩, false, .int .int 3⟩])) bufferWriter []
      = Fprintf bufferWriter [] (ascii "16:1:A,1:1#1:b,1:2#\x7d") ∧
    ∀ g : StructField GoVal, excluded g = true →
      (field g).2.2 = false ∧
      includedPairs ([⟨ascii "A", true, none, ⟨.other, true⟩, false, .int .int 1⟩]
        ++ g :: [⟨ascii "C", true, some (ascii "-"), ⟨.other, true⟩, false, .int .int 3⟩])
        = includedPairs [⟨ascii "A", true, none, ⟨.other, true⟩, false, .int .int 1⟩]
          ++ includedPairs [⟨ascii "C", true, some (ascii "-"), ⟨.other, true⟩, false, .int .int 3⟩] :=
  ⟨by decide, by decide,
    Encode_struct_field_pair [⟨ascii "A", true, none, ⟨.other, true⟩, false, .int .int 1⟩]
      [⟨ascii "C", true, some (ascii "-"), ⟨.other, true⟩, false, .int .int 3⟩]
      ⟨ascii "B", true, some (ascii "b"), ⟨.other, true⟩, false, .int .int 2⟩ (by decide) (by decide)
      (by decide) bufferWriter []⟩

/-- A field in storage of its own is never omitted for `omitempty`: the pointer of
its header is neither nil nor the shared zero storage of `reflect.Zero`. -/
theorem field_own_storage (f : StructField GoVal) (hc : f.canInterface = true)
    (ht : f.tag ≠ some (ascii "-")) (hp : f.fv.ptr = .other) :
    field f = (selectedKey f, f.val, true) := by
  have hex : excluded f = false := by
    unfold excluded
    simp [hc, ht]
  have hz : f.eqZero = false := by
    unfold StructField.eqZero reflectZero
    rcases f with ⟨name, ci, tag, ⟨ptr, indir⟩, ps, val⟩
    simp only at hp
    subst hp
    cases ps <;> simp
  rw [field_eq, if_neg (by simp [hex]), if_neg (by simp [hz])]

/-- C14: a struct whose only field is an `int` annotated `n,omitempty` and holding
0, reached through a pointer or as the element of a slice, is encoded with that
field: `field` compares the header of the field with that of `reflect.Zero`, and
the copy that `reflect` hands on lies in storage of its own. Every field in such
storage is kept, whatever its value. -/
theorem Encode_omitempty_zero_int :
    Encode (.ptr (some (.struct [⟨ascii "N", true, some (ascii "n,omitempty"),
        ⟨.other, true⟩, false, .int .int 0⟩]))) bufferWriter []
      = (ascii "8:1:n,1:0#\x7d", .ok) ∧
    Encode (.slice ⟨.struct, ascii "main.T"⟩ [.struct [⟨ascii "N", true,
        some (ascii "n,omitempty"), ⟨.other, true⟩, false, .int .int 0⟩]]) bufferWriter []
      = (ascii "11:8:1:n,1:0#\x7d]", .ok) ∧
    ∀ f : StructField GoVal, f.canInterface = true → f.tag ≠ some (ascii "-") →
      f.fv.ptr = .other → (field f).2.2 = true := by
  refine ⟨by decide, by decide, fun f hc ht hp => ?_⟩
  rw [field_own_storage f hc ht hp]

/-! ## Map keys -/

/-- C12, as a counterexample: the map holding 10 under the integer key 1 is
accepted, and the frame of its key in the payload is `1:1#`, an integer frame:
its tag is the hash sign, not the comma. -/
theorem Encode_map_int_key_frame :
    Encode (.map ⟨.int, ascii "int"⟩ [(.int .int 1, .int .int 10)]) bufferWriter []
      = (ascii "9:1:1#2:10#\x7d", .ok) ∧
    written (.int .int 1) = ascii "1:1#" ∧
    (written (.int .int 1)).getLast? = some tagInteger ∧
    (written (.int .int 1)).getLast? ≠ some tagString := by
  decide

/-- C12, amended: for every map that the encoder accepts, the payload of the
dictionary frame is the concatenation, over the entries in the order the sort
leaves them in, of the frame that `Encode` writes for the key itself followed by
the frame of the value. The key frame is a string frame, with the comma as its
tag, when the key is a string, and an integer frame, with the hash sign as its
tag, when the key is an integer. -/
theorem Encode_map_key_frames (key : GoType) (es : List (GoVal × GoVal))
    (h : Succeeds (.map key es)) {σ : Type} (e : Writer σ) (s : σ) :
    Encode (.map key es) e s =
      Fprintf e s (frame
        ((sortSlice (fun a b => strLess (valueString key a.1) (valueString key b.1)) es).map
          fun p => written p.1 ++ written p.2).flatten 125) ∧
    ∀ p ∈ es, Succeeds p.1 ∧ Succeeds p.2 ∧
      (∀ b, p.1 = .str false b → written p.1 = decimal b.length ++ [58] ++ b ++ [44]) ∧
      (∀ k n, p.1 = .int k n →
        written p.1 = decimal (fmtInt n).length ++ [58] ++ fmtInt n ++ [35]) := by
  have hloop : (encodeMapLoop Encode bufferWriter
      (sortSlice (fun a b => strLess (valueString key a.1) (valueString key b.1)) es) []).2
      = .ok := by
    rw [← Encode_map_outcome]
    exact h
  have hall := encodeMapLoop_ok_inv _ [] _ (Prod.ext rfl hloop)
  refine ⟨?_, fun p hp => ?_⟩
  · rw [Encode_map]
    simp only [encodeMap]
    rw [encodeMapLoop_ok _ hall []]
    rfl
  · have hp' := hall p ((mem_sortSlice _ _ _).2 hp)
    refine ⟨hp'.1, hp'.2.2, ?_, ?_⟩
    · intro b hb
      rw [hb]
      rfl
    · intro k n hn
      rw [hn]
      rfl

/-- C12, amended, at the map holding 10 under the integer key 1. -/
theorem Encode_map_key_frames_witness :
    Succeeds (.map ⟨.int, ascii "int"⟩ [(.int .int 1, .int .int 10)]) ∧
    (Encode (.map ⟨.int, ascii "int"⟩ [(.int .int 1, .int .int 10)]) bufferWriter []
      = Fprintf bufferWriter [] (ascii "9:1:1#2:10#\x7d") ∧
    ∀ p ∈ [(GoVal.int .int 1, GoVal.int .int 10)], Succeeds p.1 ∧ Succeeds p.2 ∧
      (∀ b, p.1 = .str false b → written p.1 = decimal b.length ++ [58] ++ b ++ [44]) ∧
      (∀ k n, p.1 = .int k n →
        written p.1 = decimal (fmtInt n).length ++ [58] ++ fmtInt n ++ [35])) :=
  ⟨by decide,
    Encode_map_key_frames ⟨.int, ascii "int"⟩ [(.int .int 1, .int .int 10)] (by decide)
      bufferWriter []⟩

end Tnetstrings
